import Mathlib

/-!
Verification development for the Connect4 AI benchmark repository.

The repository's search engine (`MinimaxAI.minimax`, `MinimaxABAI.minimax_ab`),
board model (`Connect4Game`) and heuristic evaluator are used by the sources in
`src/` but their definitions are not among them; they are modelled here from
the specification (sections 3, 4.1-4.4 of the spec), with doc comments marking
every such definition.  The benchmark harness (`src/reports/simple_benchmark.py`)
and the training-script filename helpers (`src/train_rl.py`) are translated
from their sources.
-/

/-! ## Board model (spec sections 3 and 4.1) -/

/-- Modelled from the spec: a board is a fixed 6-row by 7-column grid; we
represent it as a list of 7 columns, each column the list of tokens
(player ids 1 or 2) from the bottom up, so gravity is the list order. -/
def Board : Type := List (List ℕ)

instance : DecidableEq Board := by unfold Board; infer_instance

instance : Repr Board := by unfold Board; infer_instance

/-- Modelled from the spec: the opponent of a player id. -/
def opp (p : ℕ) : ℕ := if p = 1 then 2 else 1

/-- The tokens of column `c` (empty list when out of range). -/
def colAt (b : Board) (c : ℕ) : List ℕ := b.getD c []

/-- The cell in column `c` at height `r` (0 = bottom); 0 means empty. -/
def cellAt (b : Board) (c r : ℕ) : ℕ := (colAt b c).getD r 0

/-- Modelled from the spec: `is_valid_move(column)` — true iff `0 ≤ c < 7`
and the column's top cell is empty (fewer than 6 tokens). -/
def isValidMove (b : Board) (c : ℕ) : Bool := c < 7 && (colAt b c).length < 6

/-- Modelled from the spec: `make_move` — places the mover's token in the
lowest empty cell of the column; a no-op when the move is invalid. -/
def makeMove (b : Board) (c p : ℕ) : Board :=
  if isValidMove b c then b.set c (colAt b c ++ [p]) else b

/-- Horizontal window of four starting at `(c, r)` all equal to `p`. -/
def winH (b : Board) (p c r : ℕ) : Bool :=
  (cellAt b c r = p : Bool) && (cellAt b (c+1) r = p : Bool) &&
  (cellAt b (c+2) r = p : Bool) && (cellAt b (c+3) r = p : Bool)

/-- Vertical window of four starting at `(c, r)` all equal to `p`. -/
def winV (b : Board) (p c r : ℕ) : Bool :=
  (cellAt b c r = p : Bool) && (cellAt b c (r+1) = p : Bool) &&
  (cellAt b c (r+2) = p : Bool) && (cellAt b c (r+3) = p : Bool)

/-- Up-right diagonal window of four starting at `(c, r)` all equal to `p`. -/
def winD (b : Board) (p c r : ℕ) : Bool :=
  (cellAt b c r = p : Bool) && (cellAt b (c+1) (r+1) = p : Bool) &&
  (cellAt b (c+2) (r+2) = p : Bool) && (cellAt b (c+3) (r+3) = p : Bool)

/-- Down-right diagonal window of four whose left end is at `(c, r+3)`. -/
def winA (b : Board) (p c r : ℕ) : Bool :=
  (cellAt b c (r+3) = p : Bool) && (cellAt b (c+1) (r+2) = p : Bool) &&
  (cellAt b (c+2) (r+1) = p : Bool) && (cellAt b (c+3) r = p : Bool)

/-- Modelled from the spec: `check_winner` scans for four-in-a-row
horizontally, vertically and on both diagonals; here as a Boolean test
for a given player. -/
def hasWin (b : Board) (p : ℕ) : Bool :=
  (List.range 7).any fun c => (List.range 6).any fun r =>
    winH b p c r || winV b p c r || winD b p c r || winA b p c r

/-- Modelled from the spec: the board is full when every column holds 6 tokens. -/
def isFull (b : Board) : Bool :=
  (List.range 7).all fun c => 6 ≤ (colAt b c).length

/-- Modelled from the spec: `is_game_over` — a win for either player or a
full board (draw). -/
def gameOver (b : Board) : Bool := hasWin b 1 || hasWin b 2 || isFull b

/-- Modelled from the spec: the legal columns, in the fixed deterministic
ascending order used by both search variants. -/
def legalMoves (b : Board) : List ℕ :=
  (List.range 7).filter fun c => isValidMove b c

/-! ## Heuristic evaluator (spec section 4.2) -/

/-- All fully-on-board windows of four contiguous cells, by coordinates. -/
def allWindows : List (List (ℕ × ℕ)) :=
  ((List.range 4).flatMap fun c => (List.range 6).map fun r =>
    [(c, r), (c+1, r), (c+2, r), (c+3, r)]) ++
  ((List.range 7).flatMap fun c => (List.range 3).map fun r =>
    [(c, r), (c, r+1), (c, r+2), (c, r+3)]) ++
  ((List.range 4).flatMap fun c => (List.range 3).map fun r =>
    [(c, r), (c+1, r+1), (c+2, r+2), (c+3, r+3)]) ++
  ((List.range 4).flatMap fun c => (List.range 3).map fun r =>
    [(c, r+3), (c+1, r+2), (c+2, r+1), (c+3, r)])

/-- Number of cells of a window owned by player `p`. -/
def countIn (b : Board) (w : List (ℕ × ℕ)) (p : ℕ) : ℕ :=
  (w.filter fun cr => cellAt b cr.1 cr.2 = p).length

/-- Modelled from the spec: score of one window of four — reward partial
alignments for the player, penalise the opponent's, never both. -/
def windowScore (own other : ℕ) : ℤ :=
  if own = 3 ∧ other = 0 then 5
  else if own = 2 ∧ other = 0 then 2
  else if other = 3 ∧ own = 0 then -4
  else 0

/-- Number of the player's tokens in the centre column (column 3). -/
def centerCount (b : Board) (p : ℕ) : ℕ :=
  ((colAt b 3).filter fun x => x = p).length

/-- Modelled from the spec: `evaluate(board, player)` — static score of a
board from the player's perspective: window scoring plus centre-column
control, with immediate win/loss at a magnitude dominating any heuristic
combination. -/
def evaluate (b : Board) (p : ℕ) : ℤ :=
  if hasWin b p then 1000000
  else if hasWin b (opp p) then -1000000
  else
    3 * (centerCount b p : ℤ) - 3 * (centerCount b (opp p) : ℤ) +
    (allWindows.map fun w => windowScore (countIn b w p) (countIn b w (opp p))).sum

/-! ## Score domain

Scores are integers; the alpha-beta bounds start at minus/plus infinity, so
the search works in the integers extended with a bottom and a top element. -/

/-- The linearly ordered domain of search values: integers with `⊥` (the
root's initial best, Python's `float('-inf')`) and `⊤` (`float('inf')`). -/
abbrev Score : Type := WithBot (WithTop ℤ)

/-- Embedding of an integer score into the search value domain. -/
def toExt (z : ℤ) : Score := ((z : WithTop ℤ) : Score)

/-! ## Search engine, plain variants (spec sections 4.3 and 4.4)

Both variants are modelled on a fuel argument (the number of remaining
plies); the repository's integer `depth` parameter is mapped to fuel by
`Int.toNat`, so every depth ≤ 0 evaluates immediately, as section 7 of the
spec requires. -/

/-- Modelled from the spec: `MinimaxAI.minimax` — at a terminal position or
at depth 0 return the evaluator's score; otherwise fold max (maximising) or
min (minimising) over the legal columns in ascending order. -/
def minimaxF (pid : ℕ) : ℕ → Board → Bool → Score
  | 0, b, _ => toExt (evaluate b pid)
  | n+1, b, maxing =>
    if gameOver b then toExt (evaluate b pid)
    else
      let mover := if maxing then pid else opp pid
      let children := (legalMoves b).map fun c =>
        minimaxF pid n (makeMove b c mover) (!maxing)
      if maxing then children.foldl max ⊥ else children.foldl min ⊤

/-- Modelled from the spec: the alpha-beta sibling loop at a maximising
node — keep the best value, raise `alpha`, and return immediately once
`alpha ≥ beta` (the pruning condition). -/
def abLoopMax (f : ℕ → Score → Score → Score) : List ℕ → Score → Score → Score → Score
  | [], v, _, _ => v
  | c :: cs, v, a, bet =>
    let s := f c a bet
    let v' := max v s
    let a' := max a v'
    if bet ≤ a' then v' else abLoopMax f cs v' a' bet

/-- Modelled from the spec: the alpha-beta sibling loop at a minimising
node — keep the best (least) value, lower `beta`, and return immediately
once `alpha ≥ beta`. -/
def abLoopMin (f : ℕ → Score → Score → Score) : List ℕ → Score → Score → Score → Score
  | [], v, _, _ => v
  | c :: cs, v, a, bet =>
    let s := f c a bet
    let v' := min v s
    let bet' := min bet v'
    if bet' ≤ a then v' else abLoopMin f cs v' a bet'

/-- Modelled from the spec: `MinimaxABAI.minimax_ab` — same recursive shape
as `minimaxF` with threaded `alpha`/`beta` bounds and pruning. -/
def abF (pid : ℕ) : ℕ → Board → Bool → Score → Score → Score
  | 0, b, _, _, _ => toExt (evaluate b pid)
  | n+1, b, maxing, a, bet =>
    if gameOver b then toExt (evaluate b pid)
    else
      let mover := if maxing then pid else opp pid
      let f := fun c a' bet' => abF pid n (makeMove b c mover) (!maxing) a' bet'
      if maxing then abLoopMax f (legalMoves b) ⊥ a bet
      else abLoopMin f (legalMoves b) ⊤ a bet

/-- Modelled from the spec: the root loop of `MinimaxAI.get_move` — evaluate
each legal column one ply down and keep the first column that strictly
improves the best score (first-encountered tie-break). -/
def mmRoot (pid n : ℕ) (b : Board) : List ℕ → Option ℕ × Score → Option ℕ × Score
  | [], st => st
  | c :: cs, (best, bv) =>
    let s := minimaxF pid n (makeMove b c pid) false
    if bv < s then mmRoot pid n b cs (some c, s) else mmRoot pid n b cs (best, bv)

/-- Modelled from the spec: `MinimaxAI.get_move` — returns the chosen column
together with its root score; `none` when no legal move exists. -/
def get_move (pid : ℕ) (d : ℤ) (b : Board) : Option ℕ × Score :=
  mmRoot pid (d - 1).toNat b (legalMoves b) (none, ⊥)

/-- Modelled from the spec: `minimax` with the repository's integer depth
parameter; non-positive depths evaluate immediately. -/
def minimax (pid : ℕ) (b : Board) (d : ℤ) (maxing : Bool) : Score :=
  minimaxF pid d.toNat b maxing

/-- Modelled from the spec: `minimax_ab` with the repository's integer depth
parameter and explicit bounds. -/
def minimax_ab (pid : ℕ) (b : Board) (d : ℤ) (maxing : Bool) (a bet : Score) : Score :=
  abF pid d.toNat b maxing a bet

/-! ## Node counting

`mmCnt` and the `abRunF` count component give the number of recursive
invocations of `minimax` (respectively `minimax_ab`) in a call tree: every
call — leaf, terminal or internal — contributes exactly one. -/

/-- Number of recursive `minimax` invocations in the call tree rooted at a
single call on the given board, fuel and side. -/
def mmCnt (pid : ℕ) : ℕ → Board → Bool → ℕ
  | 0, _, _ => 1
  | n+1, b, maxing =>
    if gameOver b then 1
    else
      let mover := if maxing then pid else opp pid
      1 + ((legalMoves b).map fun c =>
        mmCnt pid n (makeMove b c mover) (!maxing)).sum

/-- Outcome of one alpha-beta call: its value, the number of recursive
invocations it made, whether the pruning condition `alpha ≥ beta` fired
anywhere inside (`cut`), and whether it ever fired with at least one
sibling still unexplored (`skip`). -/
structure ABOut where
  v : Score
  k : ℕ
  cut : Bool
  skip : Bool
deriving DecidableEq, Repr

/-- Instrumented alpha-beta sibling loop at a maximising node. -/
def abRunLoopMax (f : ℕ → Score → Score → ABOut) :
    List ℕ → Score → Score → Score → ABOut
  | [], v, _, _ => ⟨v, 0, false, false⟩
  | c :: cs, v, a, bet =>
    let o := f c a bet
    let v' := max v o.v
    let a' := max a v'
    if bet ≤ a' then ⟨v', o.k, true, o.skip || !cs.isEmpty⟩
    else
      let r := abRunLoopMax f cs v' a' bet
      ⟨r.v, o.k + r.k, o.cut || r.cut, o.skip || r.skip⟩

/-- Instrumented alpha-beta sibling loop at a minimising node. -/
def abRunLoopMin (f : ℕ → Score → Score → ABOut) :
    List ℕ → Score → Score → Score → ABOut
  | [], v, _, _ => ⟨v, 0, false, false⟩
  | c :: cs, v, a, bet =>
    let o := f c a bet
    let v' := min v o.v
    let bet' := min bet v'
    if bet' ≤ a then ⟨v', o.k, true, o.skip || !cs.isEmpty⟩
    else
      let r := abRunLoopMin f cs v' a bet'
      ⟨r.v, o.k + r.k, o.cut || r.cut, o.skip || r.skip⟩

/-- Instrumented `minimax_ab`: same recursion as `abF` together with the
invocation count and the pruning flags. -/
def abRunF (pid : ℕ) : ℕ → Board → Bool → Score → Score → ABOut
  | 0, b, _, _, _ => ⟨toExt (evaluate b pid), 1, false, false⟩
  | n+1, b, maxing, a, bet =>
    if gameOver b then ⟨toExt (evaluate b pid), 1, false, false⟩
    else
      let mover := if maxing then pid else opp pid
      let f := fun c a' bet' => abRunF pid n (makeMove b c mover) (!maxing) a' bet'
      let r := if maxing then abRunLoopMax f (legalMoves b) ⊥ a bet
               else abRunLoopMin f (legalMoves b) ⊤ a bet
      ⟨r.v, 1 + r.k, r.cut, r.skip⟩

/-- Root state of the instrumented alpha-beta root loop: chosen column,
best score so far (also the running `alpha`), accumulated node count and
pruning flags. -/
structure ABRootSt where
  best : Option ℕ
  bv : Score
  k : ℕ
  cut : Bool
  skip : Bool
deriving DecidableEq, Repr

/-- Modelled from the spec: the root loop of `MinimaxABAI.get_move` — each
legal column is searched one ply down with the running best score as
`alpha` and `⊤` as `beta`; the first strictly improving column is kept. -/
def abRoot (pid n : ℕ) (b : Board) : List ℕ → ABRootSt → ABRootSt
  | [], st => st
  | c :: cs, st =>
    let o := abRunF pid n (makeMove b c pid) false st.bv ⊤
    let st' : ABRootSt :=
      if st.bv < o.v then ⟨some c, o.v, st.k + o.k, st.cut || o.cut, st.skip || o.skip⟩
      else ⟨st.best, st.bv, st.k + o.k, st.cut || o.cut, st.skip || o.skip⟩
    abRoot pid n b cs st'

/-- Modelled from the spec: the full instrumented alpha-beta root search. -/
def abRootRun (pid : ℕ) (d : ℤ) (b : Board) : ABRootSt :=
  abRoot pid (d - 1).toNat b (legalMoves b) ⟨none, ⊥, 0, false, false⟩

/-- Modelled from the spec: `MinimaxABAI.get_move` — chosen column and its
root score. -/
def get_move_ab (pid : ℕ) (d : ℤ) (b : Board) : Option ℕ × Score :=
  ((abRootRun pid d b).best, (abRootRun pid d b).bv)

/-- Total `minimax` invocations of one `MinimaxAI.get_move` call. -/
def mmTotalNodes (pid : ℕ) (d : ℤ) (b : Board) : ℕ :=
  ((legalMoves b).map fun c => mmCnt pid (d - 1).toNat (makeMove b c pid) false).sum

/-- Total `minimax_ab` invocations of one `MinimaxABAI.get_move` call. -/
def abTotalNodes (pid : ℕ) (d : ℤ) (b : Board) : ℕ := (abRootRun pid d b).k

/-- Whether the pruning condition `alpha ≥ beta` fired anywhere during an
alpha-beta `get_move` search. -/
def abCutHappened (pid : ℕ) (d : ℤ) (b : Board) : Bool := (abRootRun pid d b).cut

/-- Whether a pruning cutoff fired with at least one sibling unexplored. -/
def abSkipHappened (pid : ℕ) (d : ℤ) (b : Board) : Bool := (abRootRun pid d b).skip

/-! ## The counting subclasses (src/reports/simple_benchmark.py, lines 13-27)

`CountingMinimax.minimax` executes `self.nodes += 1` and then runs the
inherited recursion, whose recursive calls dispatch back to the counting
override; the embedding threads the mutable `nodes` counter explicitly. -/

/-- `CountingMinimax.minimax`: increment the counter, then the inherited
`MinimaxAI.minimax` body with recursive calls threading the counter. -/
def cminimaxF (pid : ℕ) : ℕ → Board → Bool → ℕ → Score × ℕ
  | 0, b, _, k => (toExt (evaluate b pid), k + 1)
  | n+1, b, maxing, k =>
    if gameOver b then (toExt (evaluate b pid), k + 1)
    else
      let mover := if maxing then pid else opp pid
      let step := fun (acc : Score × ℕ) (c : ℕ) =>
        let r := cminimaxF pid n (makeMove b c mover) (!maxing) acc.2
        (if maxing then max acc.1 r.1 else min acc.1 r.1, r.2)
      (legalMoves b).foldl step ((if maxing then ⊥ else ⊤), k + 1)

/-- The root loop of `CountingMinimax`'s inherited `get_move`, threading
the node counter through the child searches. -/
def cmmRoot (pid n : ℕ) (b : Board) :
    List ℕ → Option ℕ × Score → ℕ → (Option ℕ × Score) × ℕ
  | [], st, k => (st, k)
  | c :: cs, (best, bv), k =>
    let r := cminimaxF pid n (makeMove b c pid) false k
    if bv < r.1 then cmmRoot pid n b cs (some c, r.1) r.2
    else cmmRoot pid n b cs (best, bv) r.2

/-- `CountingMinimax` (src/reports/simple_benchmark.py line 13): a
`MinimaxAI` carrying a persistent node counter. -/
structure CountingMinimax where
  player_id : ℕ
  depth : ℤ
  nodes : ℕ
deriving DecidableEq, Repr

/-- `CountingMinimax.__init__`: the counter starts at zero. -/
def CountingMinimax.make (pid : ℕ) (d : ℤ) : CountingMinimax := ⟨pid, d, 0⟩

/-- `get_move` on a `CountingMinimax` instance: the chosen column and the
updated instance (only `nodes` changes). -/
def CountingMinimax.get_move (ai : CountingMinimax) (b : Board) :
    Option ℕ × CountingMinimax :=
  let r := cmmRoot ai.player_id (ai.depth - 1).toNat b (legalMoves b) (none, ⊥) ai.nodes
  (r.1.1, ⟨ai.player_id, ai.depth, r.2⟩)

/-- Counter-threading alpha-beta sibling loop at a maximising node. -/
def cabLoopMax (f : ℕ → Score → Score → ℕ → Score × ℕ) :
    List ℕ → Score → Score → Score → ℕ → Score × ℕ
  | [], v, _, _, k => (v, k)
  | c :: cs, v, a, bet, k =>
    let r := f c a bet k
    let v' := max v r.1
    let a' := max a v'
    if bet ≤ a' then (v', r.2) else cabLoopMax f cs v' a' bet r.2

/-- Counter-threading alpha-beta sibling loop at a minimising node. -/
def cabLoopMin (f : ℕ → Score → Score → ℕ → Score × ℕ) :
    List ℕ → Score → Score → Score → ℕ → Score × ℕ
  | [], v, _, _, k => (v, k)
  | c :: cs, v, a, bet, k =>
    let r := f c a bet k
    let v' := min v r.1
    let bet' := min bet v'
    if bet' ≤ a then (v', r.2) else cabLoopMin f cs v' a bet' r.2

/-- `CountingAlphaBeta.minimax_ab`: increment the counter, then the
inherited `MinimaxABAI.minimax_ab` body with counter-threading recursion. -/
def cabF (pid : ℕ) : ℕ → Board → Bool → Score → Score → ℕ → Score × ℕ
  | 0, b, _, _, _, k => (toExt (evaluate b pid), k + 1)
  | n+1, b, maxing, a, bet, k =>
    if gameOver b then (toExt (evaluate b pid), k + 1)
    else
      let mover := if maxing then pid else opp pid
      if maxing then cabLoopMax (fun c a' bet' k' => cabF pid n (makeMove b c mover) false a' bet' k') (legalMoves b) ⊥ a bet (k + 1)
      else cabLoopMin (fun c a' bet' k' => cabF pid n (makeMove b c mover) true a' bet' k') (legalMoves b) ⊤ a bet (k + 1)

/-- The root loop of `CountingAlphaBeta`'s inherited `get_move`, threading
the node counter, with the running best score as `alpha`. -/
def cabRoot (pid n : ℕ) (b : Board) :
    List ℕ → Option ℕ × Score → ℕ → (Option ℕ × Score) × ℕ
  | [], st, k => (st, k)
  | c :: cs, (best, bv), k =>
    let r := cabF pid n (makeMove b c pid) false bv ⊤ k
    if bv < r.1 then cabRoot pid n b cs (some c, r.1) r.2
    else cabRoot pid n b cs (best, bv) r.2

/-- `CountingAlphaBeta` (src/reports/simple_benchmark.py line 21): a
`MinimaxABAI` carrying a persistent node counter. -/
structure CountingAlphaBeta where
  player_id : ℕ
  depth : ℤ
  nodes : ℕ
deriving DecidableEq, Repr

/-- `CountingAlphaBeta.__init__`: the counter starts at zero. -/
def CountingAlphaBeta.make (pid : ℕ) (d : ℤ) : CountingAlphaBeta := ⟨pid, d, 0⟩

/-- `get_move` on a `CountingAlphaBeta` instance. -/
def CountingAlphaBeta.get_move (ai : CountingAlphaBeta) (b : Board) :
    Option ℕ × CountingAlphaBeta :=
  let r := cabRoot ai.player_id (ai.depth - 1).toNat b (legalMoves b) (none, ⊥) ai.nodes
  (r.1.1, ⟨ai.player_id, ai.depth, r.2⟩)

/-! ## Board generation (src/reports/simple_benchmark.py, lines 29-38)

The `Connect4Game` class is not among the given sources; its state and
`make_move` (with the current player implied and win/draw detection updated
after each placement) are modelled from the spec.  `random.randint` draws
are modelled from an abstract stream: the `i`-th raw value is reduced into
the requested interval, and the stream index is threaded exactly along
Python's evaluation order, including the short-circuit that skips the
validity draw once the game is over. -/

/-- Modelled from the spec: the mutable game state of `Connect4Game` —
board, player to move, and the game-over flag. -/
structure Game where
  board : Board
  current : ℕ
  over : Bool
deriving DecidableEq, Repr

/-- Modelled from the spec: a fresh game on an empty board, player 1 to move. -/
def newGame : Game := ⟨List.replicate 7 [], 1, false⟩

/-- Modelled from the spec: `Connect4Game.make_move(column)` — no-op when
invalid, otherwise place the current player's token, recompute game-over,
and pass the turn. -/
def gMakeMove (g : Game) (c : ℕ) : Game :=
  if isValidMove g.board c then
    let b' := makeMove g.board c g.current
    ⟨b', opp g.current, gameOver b'⟩
  else g

/-- `random.randint(lo, hi)` from an abstract stream: the raw draw at
index `i` reduced into `[lo, hi]`, together with the next index. -/
def randint (lo hi : ℕ) (s : ℕ → ℕ) (i : ℕ) : ℕ × ℕ :=
  (lo + s i % (hi - lo + 1), i + 1)

/-- The inner move loop of `generate_boards`: up to `t` iterations, each
drawing a column for the validity test and — only when that column is
valid — a second, independent column that is actually played. -/
def genInner (s : ℕ → ℕ) : ℕ → Game → ℕ → Game × ℕ
  | 0, g, i => (g, i)
  | t+1, g, i =>
    if g.over then genInner s t g i
    else
      let d1 := randint 0 6 s i
      if isValidMove g.board d1.1 then
        let d2 := randint 0 6 s d1.2
        genInner s t (gMakeMove g d2.1) d2.2
      else genInner s t g d1.2

/-- `generate_boards` (src/reports/simple_benchmark.py line 29): for each of
`n` samples play `randint(8, 15)` random-move iterations from a fresh game
and keep the final board unless the game is over. -/
def generate_boards (s : ℕ → ℕ) : ℕ → ℕ → List Board
  | 0, _ => []
  | m+1, i =>
    let d := randint 8 15 s i
    let r := genInner s d.1 newGame d.2
    let rest := generate_boards s m r.2
    if r.1.over then rest else r.1.board :: rest

/-- Game states reachable from a fresh game by exactly `k` legal moves. -/
inductive Reach : ℕ → Game → Prop
  | start : Reach 0 newGame
  | step {k : ℕ} {g : Game} (c : ℕ) :
      Reach k g → isValidMove g.board c = true → Reach (k+1) (gMakeMove g c)

/-! ## Benchmark harness (src/reports/simple_benchmark.py, lines 40-77)

Wall-clock time is not computable in the embedding; the per-call elapsed
times are abstracted into two oracles `tmM`/`tmA : ℤ → Board → ℚ` (depth and
board determine the measured duration).  Everything else — the accumulation
loops, the averaging and the derived record fields — follows the source. -/

/-- Accumulator of one depth's benchmark loop, additionally recording the
exact board sequence each variant was invoked on. -/
structure DepthAcc where
  mmTrace : List Board
  abTrace : List Board
  mmTime : ℚ
  abTime : ℚ
  mmNodes : ℕ
  abNodes : ℕ
deriving DecidableEq, Repr

/-- The per-depth board loop: for each board, a fresh `CountingMinimax` is
timed and its counter read, then a fresh `CountingAlphaBeta`. -/
def depthLoop (tmM tmA : ℤ → Board → ℚ) (d : ℤ) :
    List Board → DepthAcc → DepthAcc
  | [], acc => acc
  | b :: bs, acc =>
    let r1 := (CountingMinimax.make 1 d).get_move b
    let r2 := (CountingAlphaBeta.make 1 d).get_move b
    depthLoop tmM tmA d bs
      ⟨acc.mmTrace ++ [b], acc.abTrace ++ [b],
       acc.mmTime + tmM d b, acc.abTime + tmA d b,
       acc.mmNodes + r1.2.nodes, acc.abNodes + r2.2.nodes⟩

/-- One depth of the benchmark loop, started from an empty accumulator. -/
def runDepth (tmM tmA : ℤ → Board → ℚ) (bs : List Board) (d : ℤ) : DepthAcc :=
  depthLoop tmM tmA d bs ⟨[], [], 0, 0, 0, 0⟩

/-- The board list is generated once and each depth of `[3, 4, 5]` is run
on that same list (`benchmark`, lines 41-61). -/
def benchmarkRuns (s : ℕ → ℕ) (tmM tmA : ℤ → Board → ℚ) : List DepthAcc :=
  ([3, 4, 5] : List ℤ).map (runDepth tmM tmA (generate_boards s 30 0))

/-- Python's `round` on a value known exactly: round half to even. -/
def roundHalfEven (q : ℚ) : ℤ :=
  if q - ⌊q⌋ < 1/2 then ⌊q⌋
  else if 1/2 < q - ⌊q⌋ then ⌊q⌋ + 1
  else if ⌊q⌋ % 2 = 0 then ⌊q⌋ else ⌊q⌋ + 1

/-- Python's `round(x, k)`: round half to even at `k` decimal digits. -/
def roundTo (k : ℕ) (q : ℚ) : ℚ := (roundHalfEven (q * 10 ^ k) : ℚ) / 10 ^ k

/-- Python's `int()` on a non-negative exact value: truncation toward zero. -/
def truncRat (q : ℚ) : ℤ := if 0 ≤ q then ⌊q⌋ else -⌊-q⌋

/-- One emitted benchmark record (`results.append({...})`, lines 68-76). -/
structure BenchRec where
  Depth : ℤ
  Minimax_Time_Sec : ℚ
  AlphaBeta_Time_Sec : ℚ
  Speedup : ℚ
  Minimax_Nodes : ℤ
  AlphaBeta_Nodes : ℤ
  Nodes_Saved_Percent : ℚ
deriving DecidableEq, Repr

/-- The record built for one depth from the accumulated sums (lines 63-76):
averages over `len(boards)`, rounding as in the source.  Rational division
is total (`x / 0 = 0`) where Python would raise; the division-by-zero
question is treated separately by `benchAverages`. -/
def mkRecord (tmM tmA : ℤ → Board → ℚ) (bs : List Board) (d : ℤ) : BenchRec :=
  let r := runDepth tmM tmA bs d
  let n : ℚ := (bs.length : ℚ)
  let amt := r.mmTime / n
  let aat := r.abTime / n
  let amn := (r.mmNodes : ℚ) / n
  let aan := (r.abNodes : ℚ) / n
  { Depth := d
    Minimax_Time_Sec := roundTo 4 amt
    AlphaBeta_Time_Sec := roundTo 4 aat
    Speedup := roundTo 1 (amt / aat)
    Minimax_Nodes := truncRat amn
    AlphaBeta_Nodes := truncRat aan
    Nodes_Saved_Percent := roundTo 1 ((amn - aan) / amn * 100) }

/-- The four `/ len(boards)` averaging divisions of `benchmark` (lines
63-67), with `none` marking the `ZeroDivisionError` Python raises when the
generated board list is empty. -/
def benchAverages (tmM tmA : ℤ → Board → ℚ) (bs : List Board) (d : ℤ) :
    Option (ℚ × ℚ × ℚ × ℚ) :=
  let r := runDepth tmM tmA bs d
  if bs.length = 0 then none
  else some (r.mmTime / (bs.length : ℚ), r.abTime / (bs.length : ℚ),
             (r.mmNodes : ℚ) / (bs.length : ℚ), (r.abNodes : ℚ) / (bs.length : ℚ))

/-! ## Filename helpers (src/train_rl.py, lines 8-44 and 74-78)

Strings are handled as `List Char` so that every operation is a plain
structural recursion.  Python floats are carried as the exact rational value
of the IEEE-754 binary64 double: `fl` rounds a rational to the nearest
double (ties to even, 53-bit significand), and every float operation the
source performs — `float(str)` and `int / int` (both correctly rounded in
CPython) and float multiplication — applies `fl` to the exact result.
`f"{x:.1f}"` renders the double's exact value rounded half to even at one
decimal, as CPython's dtoa does.  Subnormal and overflowing magnitudes,
which no reachable value here approaches, are not modelled. -/

/-- IEEE-754 binary64 rounding: the double nearest to `q`, ties to even,
as an exact rational.  With `e = ⌊log₂ |q|⌋` the representable doubles
around `q` are the integer multiples of `2 ^ (e - 52)`, so the significand
is obtained by rounding `q · 2 ^ (52 - e)` half to even. -/
def fl (q : ℚ) : ℚ :=
  if q = 0 then 0
  else (roundHalfEven (q * (2 : ℚ) ^ ((52 : ℤ) - Int.log 2 |q|)) : ℚ) *
         (2 : ℚ) ^ (Int.log 2 |q| - (52 : ℤ))

/-- The character for a decimal digit `d < 10`. -/
def digitChar (d : ℕ) : Char := Char.ofNat (48 + d)

/-- The numeric value of a decimal digit character. -/
def digitVal (c : Char) : ℕ := c.toNat - 48

/-- Whether a character is a decimal digit. -/
def isDigitCh (c : Char) : Bool := 48 ≤ c.toNat && c.toNat ≤ 57

/-- Decimal digit characters of a positive number, most significant first;
the first argument is structural fuel (any fuel at least the number works). -/
def natCharsAux : ℕ → ℕ → List Char
  | _, 0 => []
  | 0, _+1 => []
  | f+1, n+1 => natCharsAux f ((n+1) / 10) ++ [digitChar ((n+1) % 10)]

/-- Python's `str` on a natural number. -/
def natChars (n : ℕ) : List Char := if n = 0 then ['0'] else natCharsAux n n

/-- First component: the chunk before the first separator; second: the
remaining chunks.  Helper for `splitOnCh`. -/
def splitAux (sep : Char) : List Char → List Char × List (List Char)
  | [] => ([], [])
  | c :: cs =>
    let r := splitAux sep cs
    if c = sep then ([], r.1 :: r.2) else (c :: r.1, r.2)

/-- Python's `str.split(sep)` for a one-character separator: always returns
at least one (possibly empty) chunk. -/
def splitOnCh (sep : Char) (cs : List Char) : List (List Char) :=
  (splitAux sep cs).1 :: (splitAux sep cs).2

/-- `os.path.basename`: the part after the last slash. -/
def pyBasename (cs : List Char) : List Char := (splitOnCh '/' cs).getLastD []

/-- `.replace(".pt", "")`: remove every occurrence of `.pt`. -/
def removePt : List Char → List Char
  | '.' :: 'p' :: 't' :: rest => removePt rest
  | c :: rest => c :: removePt rest
  | [] => []

/-- Python's `str.endswith` for a one-character suffix. -/
def endsWithCh (cs : List Char) (c : Char) : Bool := cs.getLast? = some c

/-- Value of a digit string (`none` when empty or not all digits), the
all-digit core of Python's `int(str)`. -/
def parseNatChars (cs : List Char) : Option ℕ :=
  if cs ≠ [] ∧ cs.all isDigitCh then
    some (cs.foldl (fun a c => a * 10 + digitVal c) 0)
  else none

/-- Python's `int(str)` (digits with an optional leading minus; a failure —
`none` — models the `ValueError` it raises). -/
def pyIntChars (cs : List Char) : Option ℤ :=
  if cs.headD ' ' = '-' then (parseNatChars cs.tail).map fun n => -(n : ℤ)
  else (parseNatChars cs).map fun n => (n : ℤ)

/-- The exact rational value of an unsigned decimal literal (digits with at
most one decimal point), before binary64 rounding. -/
def pyFloatCore (ds : List Char) : Option ℚ :=
  match splitOnCh '.' ds with
  | [ip] => (parseNatChars ip).map fun n => (n : ℚ)
  | [ip, fp] =>
    if (ip ++ fp) ≠ [] ∧ (ip ++ fp).all isDigitCh then
      some (((ip.foldl (fun a c => a * 10 + digitVal c) 0 : ℕ) : ℚ) +
            ((fp.foldl (fun a c => a * 10 + digitVal c) 0 : ℕ) : ℚ) / 10 ^ fp.length)
    else none
  | _ => none

/-- Python's `float(str)` on the decimal strings arising here: an optional
minus, then digits with at most one point, correctly rounded to binary64
(CPython's strtod is correctly rounded); `none` models `ValueError`. -/
def pyFloatChars (cs : List Char) : Option ℚ :=
  if cs.headD ' ' = '-' then (pyFloatCore cs.tail).map fun q => fl (-q)
  else (pyFloatCore cs).map fun q => fl q

/-- `f"{num/den:.1f}"`: the division is a correctly rounded binary64
double, whose exact value scaled by ten is rounded half to even and printed
as integer part, point, one digit. -/
def fmtOneDec (num den : ℕ) : List Char :=
  let t := (roundHalfEven (fl ((num : ℚ) / (den : ℚ)) * 10)).toNat
  natChars (t / 10) ++ '.' :: natChars (t % 10)

/-- `format_games` (src/train_rl.py line 8): compact label for a number of
games — `3M`/`1.5M` above a million, `500k`/`1.5k` above a thousand,
otherwise the plain decimal string. -/
def format_games (num : ℕ) : List Char :=
  if 1000000 ≤ num then
    if num % 1000000 = 0 then natChars (num / 1000000) ++ ['M']
    else fmtOneDec num 1000000 ++ ['M']
  else if 1000 ≤ num then
    if num % 1000 = 0 then natChars (num / 1000) ++ ['k']
    else fmtOneDec num 1000 ++ ['k']
  else natChars num

/-- `read_games_from_filename` (src/train_rl.py line 23): parse the game
count back out of a model filename `cnnrl_<mode>_<games>_<eps>.pt`; `none`
models an uncaught `ValueError` (only the final plain-integer branch is
guarded by `try`). -/
def read_games_from_filename (filename : List Char) : Option ℤ :=
  let base := removePt (pyBasename filename)
  let parts := splitOnCh '_' base
  if parts.length < 4 then some 0
  else
    let gp := parts.getD 2 []
    if endsWithCh gp 'k' then (pyIntChars gp.dropLast).map fun v => v * 1000
    else if endsWithCh gp 'M' then
      (pyFloatChars gp.dropLast).map fun q => truncRat (fl (q * 1000000))
    else match pyIntChars gp with
         | some v => some v
         | none => some 0

/-- The model path built by `train_resumable` (src/train_rl.py line 74):
`CNN_models/cnnrl_<mode>_<format_games(n)>_<eps>.pt`. -/
def trainFilename (mode : List Char) (n : ℕ) (eps : List Char) : List Char :=
  "CNN_models/cnnrl_".data ++ mode ++ '_' :: format_games n ++ '_' :: eps ++ ".pt".data

/-! ## Alpha-beta correctness: the fail-soft Knuth-Moore conditions -/

/-- Maximum of a list of scores, starting at `⊥`. -/
def bigMax (l : List Score) : Score := l.foldl max ⊥

/-- Minimum of a list of scores, starting at `⊤`. -/
def bigMin (l : List Score) : Score := l.foldl min ⊤

/-- The fail-soft alpha-beta contract: a call returning `r` inside the
window `(a, bet)` bounds the true value `g` from above when it fails low,
is exact when it lands inside the window, and bounds `g` from below when
it fails high. -/
def KM (r g a bet : Score) : Prop :=
  (r ≤ a → g ≤ r) ∧ (a < r → r < bet → r = g) ∧ (bet ≤ r → r ≤ g)

theorem KM_refl (r a bet : Score) : KM r r a bet :=
  ⟨fun _ => le_rfl, fun _ _ => rfl, fun _ => le_rfl⟩

theorem foldl_max_eq : ∀ (l : List Score) (v : Score), l.foldl max v = max v (bigMax l)
  | [], v => by
    simp [bigMax, max_eq_left (bot_le : (⊥ : Score) ≤ v)]
  | x :: l, v => by
    have h1 := foldl_max_eq l (max v x)
    have h2 := foldl_max_eq l (max (⊥ : Score) x)
    simp only [bigMax, List.foldl_cons] at h1 h2 ⊢
    rw [h1, h2, max_eq_right (bot_le : (⊥ : Score) ≤ x), max_assoc]

theorem foldl_min_eq : ∀ (l : List Score) (v : Score), l.foldl min v = min v (bigMin l)
  | [], v => by
    simp [bigMin, min_eq_left (le_top : v ≤ (⊤ : Score))]
  | x :: l, v => by
    have h1 := foldl_min_eq l (min v x)
    have h2 := foldl_min_eq l (min (⊤ : Score) x)
    simp only [bigMin, List.foldl_cons] at h1 h2 ⊢
    rw [h1, h2, min_eq_right (le_top : x ≤ (⊤ : Score)), min_assoc]

theorem bigMax_cons (x : Score) (l : List Score) : bigMax (x :: l) = max x (bigMax l) := by
  have := foldl_max_eq l (max (⊥ : Score) x)
  simp only [bigMax, List.foldl_cons] at *
  rw [this, max_eq_right (bot_le : (⊥ : Score) ≤ x)]

theorem bigMin_cons (x : Score) (l : List Score) : bigMin (x :: l) = min x (bigMin l) := by
  have := foldl_min_eq l (min (⊤ : Score) x)
  simp only [bigMin, List.foldl_cons] at *
  rw [this, min_eq_right (le_top : x ≤ (⊤ : Score))]

theorem abLoopMax_ge (f : ℕ → Score → Score → Score) :
    ∀ (cs : List ℕ) (v a bet : Score), v ≤ abLoopMax f cs v a bet
  | [], v, a, bet => le_rfl
  | c :: cs, v, a, bet => by
    simp only [abLoopMax]
    split
    · exact le_max_left v _
    · exact le_trans (le_max_left v _) (abLoopMax_ge f cs _ _ _)

theorem abLoopMin_le (f : ℕ → Score → Score → Score) :
    ∀ (cs : List ℕ) (v a bet : Score), abLoopMin f cs v a bet ≤ v
  | [], v, a, bet => le_rfl
  | c :: cs, v, a, bet => by
    simp only [abLoopMin]
    split
    · exact min_le_left v _
    · exact le_trans (abLoopMin_le f cs _ _ _) (min_le_left v _)

theorem abLoopMax_km (f : ℕ → Score → Score → Score) (g : ℕ → Score) :
    ∀ (cs : List ℕ) (v a bet : Score), a < bet → v ≤ a →
      (∀ c ∈ cs, ∀ a' bet' : Score, a' < bet' → KM (f c a' bet') (g c) a' bet') →
      KM (abLoopMax f cs v a bet) (max v (bigMax (cs.map g))) a bet
  | [], v, a, bet, _, _, _ => by
    simp only [abLoopMax, List.map_nil, bigMax, List.foldl_nil]
    rw [max_eq_left (bot_le : (⊥ : Score) ≤ v)]
    exact KM_refl v a bet
  | c :: cs, v, a, bet, hab, hv, hch => by
    obtain ⟨hc1, hc2, hc3⟩ := hch c (List.mem_cons_self c cs) a bet hab
    simp only [abLoopMax, List.map_cons, bigMax_cons]
    have ha' : max a (max v (f c a bet)) = max a (f c a bet) := by
      rw [← max_assoc, max_eq_left hv]
    rw [ha']
    split
    · next hprune =>
      have hbs : bet ≤ f c a bet := by
        rcases le_max_iff.mp hprune with h | h
        · exact absurd h (not_le.mpr hab)
        · exact h
      refine ⟨fun h => ?_, fun _ h2 => ?_, fun _ => ?_⟩
      · exact absurd (le_trans hbs (le_trans (le_max_right v _) h)) (not_le.mpr hab)
      · exact absurd (lt_of_le_of_lt (le_trans hbs (le_max_right v _)) h2) (lt_irrefl bet)
      · exact le_trans (max_le_max le_rfl (hc3 hbs))
          (max_le_max le_rfl (le_max_left _ _))
    · next hcont =>
      have ha'lt : max a (f c a bet) < bet := not_le.mp hcont
      have hv' : max v (f c a bet) ≤ max a (max v (f c a bet)) := le_max_right _ _
      rw [ha'] at hv'
      have IH := abLoopMax_km f g cs (max v (f c a bet)) (max a (f c a bet)) bet ha'lt hv'
        (fun c' hc' => hch c' (List.mem_cons_of_mem _ hc'))
      have hr_ge : max v (f c a bet) ≤ abLoopMax f cs (max v (f c a bet)) (max a (f c a bet)) bet :=
        abLoopMax_ge f cs _ _ _
      rcases le_or_lt (f c a bet) a with hs | hs
      · have hgc : g c ≤ f c a bet := hc1 hs
        have haa : max a (f c a bet) = a := max_eq_left hs
        rw [haa] at IH hr_ge ⊢
        obtain ⟨i1, i2, i3⟩ := IH
        have hGle : max v (max (g c) (bigMax (cs.map g))) ≤
            max (max v (f c a bet)) (bigMax (cs.map g)) := by
          rw [max_assoc]
          exact max_le_max le_rfl (max_le_max hgc le_rfl)
        have hGeq : ∀ h : a < max (max v (f c a bet)) (bigMax (cs.map g)),
            max v (max (g c) (bigMax (cs.map g))) =
            max (max v (f c a bet)) (bigMax (cs.map g)) := by
          intro h
          have hM : a < bigMax (cs.map g) := by
            by_contra hM'
            push_neg at hM'
            exact absurd (max_le (max_le hv hs) hM') (not_le.mpr h)
          rw [max_eq_right (le_trans (max_le hv hs) (le_of_lt hM)),
            max_eq_right (le_trans hgc (le_trans hs (le_of_lt hM))),
            max_eq_right (le_trans hv (le_of_lt hM))]
        refine ⟨fun h => ?_, fun h1 h2 => ?_, fun h => ?_⟩
        · exact le_trans hGle (i1 h)
        · have hre := i2 h1 h2
          rw [hre] at h1
          rw [hre]
          exact (hGeq h1).symm
        · have hr := i3 h
          have h1 : a < max (max v (f c a bet)) (bigMax (cs.map g)) :=
            lt_of_lt_of_le hab (le_trans h hr)
          rw [hGeq h1]
          exact hr
      · have hsb : f c a bet < bet := lt_of_le_of_lt (le_max_right a _) ha'lt
        have hgc : f c a bet = g c := hc2 hs hsb
        have haa : max a (f c a bet) = f c a bet := max_eq_right (le_of_lt hs)
        rw [haa] at IH hr_ge ⊢
        obtain ⟨i1, i2, i3⟩ := IH
        have hsr : f c a bet ≤ abLoopMax f cs (max v (f c a bet)) (f c a bet) bet :=
          le_trans (le_max_right v _) hr_ge
        have hGG : max v (max (g c) (bigMax (cs.map g))) =
            max (max v (f c a bet)) (bigMax (cs.map g)) := by
          rw [← hgc, max_assoc]
        rw [hGG]
        refine ⟨fun h => ?_, fun h1 h2 => ?_, fun h => i3 h⟩
        · exact absurd (lt_of_lt_of_le hs (le_trans hsr h)) (lt_irrefl a)
        · rcases lt_or_le (f c a bet) (abLoopMax f cs (max v (f c a bet)) (f c a bet) bet)
            with hlt | hle
          · exact i2 hlt h2
          · have hreq : abLoopMax f cs (max v (f c a bet)) (f c a bet) bet = f c a bet :=
              le_antisymm hle hsr
            have hG'le : max (max v (f c a bet)) (bigMax (cs.map g)) ≤ f c a bet := by
              have h3 := i1 hle
              rw [hreq] at h3
              exact h3
            rw [hreq]
            exact le_antisymm (le_trans (le_max_right v _) (le_max_left _ _)) hG'le

theorem abLoopMin_km (f : ℕ → Score → Score → Score) (g : ℕ → Score) :
    ∀ (cs : List ℕ) (v a bet : Score), a < bet → bet ≤ v →
      (∀ c ∈ cs, ∀ a' bet' : Score, a' < bet' → KM (f c a' bet') (g c) a' bet') →
      KM (abLoopMin f cs v a bet) (min v (bigMin (cs.map g))) a bet
  | [], v, a, bet, _, _, _ => by
    simp only [abLoopMin, List.map_nil, bigMin, List.foldl_nil]
    rw [min_eq_left (le_top : v ≤ (⊤ : Score))]
    exact KM_refl v a bet
  | c :: cs, v, a, bet, hab, hv, hch => by
    obtain ⟨hc1, hc2, hc3⟩ := hch c (List.mem_cons_self c cs) a bet hab
    simp only [abLoopMin, List.map_cons, bigMin_cons]
    have hb' : min bet (min v (f c a bet)) = min bet (f c a bet) := by
      rw [← min_assoc, min_eq_left hv]
    rw [hb']
    split
    · next hprune =>
      have hsa : f c a bet ≤ a := by
        rcases min_le_iff.mp hprune with h | h
        · exact absurd h (not_le.mpr hab)
        · exact h
      refine ⟨fun _ => ?_, fun h1 _ => ?_, fun h => ?_⟩
      · exact le_trans (min_le_min le_rfl (min_le_min (hc1 hsa) le_rfl))
          (min_le_min le_rfl (min_le_left _ _))
      · exact absurd (lt_of_lt_of_le h1 (le_trans (min_le_right v _) hsa)) (lt_irrefl a)
      · exact absurd (le_trans h (le_trans (min_le_right v _) hsa)) (not_le.mpr hab)
    · next hcont =>
      have hb'lt : a < min bet (f c a bet) := not_le.mp hcont
      have hv' : min bet (min v (f c a bet)) ≤ min v (f c a bet) := min_le_right _ _
      rw [hb'] at hv'
      have IH := abLoopMin_km f g cs (min v (f c a bet)) a (min bet (f c a bet)) hb'lt hv'
        (fun c' hc' => hch c' (List.mem_cons_of_mem _ hc'))
      have hr_le : abLoopMin f cs (min v (f c a bet)) a (min bet (f c a bet)) ≤
          min v (f c a bet) := abLoopMin_le f cs _ _ _
      rcases le_or_lt bet (f c a bet) with hs | hs
      · have hgc : f c a bet ≤ g c := hc3 hs
        have hbb : min bet (f c a bet) = bet := min_eq_left hs
        rw [hbb] at IH hr_le ⊢
        obtain ⟨i1, i2, i3⟩ := IH
        have hGle : min (min v (f c a bet)) (bigMin (cs.map g)) ≤
            min v (min (g c) (bigMin (cs.map g))) := by
          rw [min_assoc]
          exact min_le_min le_rfl (min_le_min hgc le_rfl)
        have hGeq : ∀ _ : min (min v (f c a bet)) (bigMin (cs.map g)) < bet,
            min v (min (g c) (bigMin (cs.map g))) =
            min (min v (f c a bet)) (bigMin (cs.map g)) := by
          intro h
          have hM : bigMin (cs.map g) < bet := by
            by_contra hM'
            push_neg at hM'
            exact absurd (le_min (le_min hv hs) hM') (not_le.mpr h)
          rw [min_eq_right (le_trans (le_of_lt hM) (le_min hv hs)),
            min_eq_right (le_trans (le_of_lt hM) (le_trans hs hgc)),
            min_eq_right (le_trans (le_of_lt hM) hv)]
        refine ⟨fun h => ?_, fun h1 h2 => ?_, fun h => ?_⟩
        · have hr := i1 h
          have h1 : min (min v (f c a bet)) (bigMin (cs.map g)) < bet :=
            lt_of_le_of_lt (le_trans hr h) hab
          rw [hGeq h1]
          exact hr
        · have hre := i2 h1 h2
          rw [hre] at h2
          rw [hre]
          exact (hGeq h2).symm
        · exact le_trans (i3 h) hGle
      · have has : a < f c a bet := lt_of_lt_of_le hb'lt (min_le_right bet _)
        have hgc : f c a bet = g c := hc2 has hs
        have hbb : min bet (f c a bet) = f c a bet := min_eq_right (le_of_lt hs)
        rw [hbb] at IH hr_le ⊢
        obtain ⟨i1, i2, i3⟩ := IH
        have hrs : abLoopMin f cs (min v (f c a bet)) a (f c a bet) ≤ f c a bet :=
          le_trans hr_le (min_le_right v _)
        have hGG : min v (min (g c) (bigMin (cs.map g))) =
            min (min v (f c a bet)) (bigMin (cs.map g)) := by
          rw [← hgc, min_assoc]
        rw [hGG]
        refine ⟨fun h => i1 h, fun h1 h2 => ?_, fun h => ?_⟩
        · rcases lt_or_le (abLoopMin f cs (min v (f c a bet)) a (f c a bet)) (f c a bet)
            with hlt | hle
          · exact i2 h1 hlt
          · have hreq : abLoopMin f cs (min v (f c a bet)) a (f c a bet) = f c a bet :=
              le_antisymm hrs hle
            have hG'ge : f c a bet ≤ min (min v (f c a bet)) (bigMin (cs.map g)) := by
              have h3 := i3 hle
              rw [hreq] at h3
              exact h3
            rw [hreq]
            exact le_antisymm hG'ge (le_trans (min_le_left _ _) (min_le_right v _))
        · exact absurd (lt_of_le_of_lt (le_trans h hrs) hs) (lt_irrefl bet)

theorem legalMoves_ne_nil (b : Board) (h : gameOver b = false) : legalMoves b ≠ [] := by
  have hful : isFull b = false := by
    simp only [gameOver, Bool.or_eq_false_iff] at h
    exact h.2
  simp only [isFull, List.all_eq_false] at hful
  obtain ⟨c, hc, hlen⟩ := hful
  apply List.ne_nil_of_mem (a := c)
  simp only [legalMoves, List.mem_filter, isValidMove]
  refine ⟨hc, ?_⟩
  simp only [List.mem_range] at hc
  simp only [decide_eq_true_eq] at hlen
  simp [hc, lt_of_not_le hlen]

theorem abF_km (pid : ℕ) : ∀ (n : ℕ) (b : Board) (maxing : Bool) (a bet : Score),
    a < bet → KM (abF pid n b maxing a bet) (minimaxF pid n b maxing) a bet
  | 0, b, maxing, a, bet, _ => KM_refl _ a bet
  | n+1, b, maxing, a, bet, hab => by
    rcases Bool.eq_false_or_eq_true (gameOver b) with hg | hg
    · simp only [abF, minimaxF, hg, if_true]
      exact KM_refl _ a bet
    · cases maxing
      · simp only [abF, minimaxF, hg, Bool.false_eq_true, if_false, Bool.not_false]
        have h := abLoopMin_km
          (fun c a' bet' => abF pid n (makeMove b c (opp pid)) true a' bet')
          (fun c => minimaxF pid n (makeMove b c (opp pid)) true)
          (legalMoves b) ⊤ a bet hab le_top
          (fun c _ a' bet' h' => abF_km pid n (makeMove b c (opp pid)) true a' bet' h')
        rw [foldl_min_eq, min_eq_right (le_top : bigMin _ ≤ ⊤)]
        simpa using h
      · simp only [abF, minimaxF, hg, Bool.false_eq_true, if_false, Bool.not_true]
        have h := abLoopMax_km
          (fun c a' bet' => abF pid n (makeMove b c pid) false a' bet')
          (fun c => minimaxF pid n (makeMove b c pid) false)
          (legalMoves b) ⊥ a bet hab bot_le
          (fun c _ a' bet' h' => abF_km pid n (makeMove b c pid) false a' bet' h')
        rw [foldl_max_eq, max_eq_right (bot_le : (⊥ : Score) ≤ bigMax _)]
        simpa using h

theorem toExt_lt_top (z : ℤ) : toExt z < (⊤ : Score) :=
  WithBot.coe_lt_coe.mpr (WithTop.coe_lt_top z)

theorem abLoopMax_lt_top (f : ℕ → Score → Score → Score)
    (hf : ∀ c a' bet', f c a' bet' < (⊤ : Score)) :
    ∀ (cs : List ℕ) (v a bet : Score), v < ⊤ → abLoopMax f cs v a bet < ⊤
  | [], v, a, bet, hv => hv
  | c :: cs, v, a, bet, hv => by
    simp only [abLoopMax]
    have hv' : max v (f c a bet) < ⊤ := max_lt hv (hf c a bet)
    split
    · exact hv'
    · exact abLoopMax_lt_top f hf cs _ _ _ hv'

theorem abLoopMin_lt_top (f : ℕ → Score → Score → Score)
    (hf : ∀ c a' bet', f c a' bet' < (⊤ : Score)) :
    ∀ (cs : List ℕ) (v a bet : Score), (v < ⊤ ∨ cs ≠ []) → abLoopMin f cs v a bet < ⊤
  | [], v, a, bet, hv => by
    rcases hv with hv | hv
    · exact hv
    · exact absurd rfl hv
  | c :: cs, v, a, bet, _ => by
    simp only [abLoopMin]
    have hv' : min v (f c a bet) < ⊤ := lt_of_le_of_lt (min_le_right v _) (hf c a bet)
    split
    · exact hv'
    · exact abLoopMin_lt_top f hf cs _ _ _ (Or.inl hv')

theorem abF_lt_top (pid : ℕ) : ∀ (n : ℕ) (b : Board) (maxing : Bool) (a bet : Score),
    abF pid n b maxing a bet < ⊤
  | 0, b, _, _, _ => toExt_lt_top _
  | n+1, b, maxing, a, bet => by
    rcases Bool.eq_false_or_eq_true (gameOver b) with hg | hg
    · simp only [abF, hg, if_true]
      exact toExt_lt_top _
    · cases maxing
      · simp only [abF, hg, Bool.false_eq_true, if_false, Bool.not_false]
        exact abLoopMin_lt_top _ (fun c a' bet' => abF_lt_top pid n _ _ a' bet') _ _ _ _
          (Or.inr (legalMoves_ne_nil b hg))
      · simp only [abF, hg, Bool.false_eq_true, if_false, Bool.not_true]
        exact abLoopMax_lt_top _ (fun c a' bet' => abF_lt_top pid n _ _ a' bet') _ _ _ _
          bot_lt_top

theorem abRunLoopMax_v (fr : ℕ → Score → Score → ABOut) (fp : ℕ → Score → Score → Score)
    (hfr : ∀ c a' bet', (fr c a' bet').v = fp c a' bet') :
    ∀ (cs : List ℕ) (v a bet : Score),
      (abRunLoopMax fr cs v a bet).v = abLoopMax fp cs v a bet
  | [], v, a, bet => rfl
  | c :: cs, v, a, bet => by
    simp only [abRunLoopMax, abLoopMax, hfr c a bet]
    split
    · rfl
    · exact abRunLoopMax_v fr fp hfr cs _ _ _

theorem abRunLoopMin_v (fr : ℕ → Score → Score → ABOut) (fp : ℕ → Score → Score → Score)
    (hfr : ∀ c a' bet', (fr c a' bet').v = fp c a' bet') :
    ∀ (cs : List ℕ) (v a bet : Score),
      (abRunLoopMin fr cs v a bet).v = abLoopMin fp cs v a bet
  | [], v, a, bet => rfl
  | c :: cs, v, a, bet => by
    simp only [abRunLoopMin, abLoopMin, hfr c a bet]
    split
    · rfl
    · exact abRunLoopMin_v fr fp hfr cs _ _ _

theorem abRunF_v (pid : ℕ) : ∀ (n : ℕ) (b : Board) (maxing : Bool) (a bet : Score),
    (abRunF pid n b maxing a bet).v = abF pid n b maxing a bet
  | 0, _, _, _, _ => rfl
  | n+1, b, maxing, a, bet => by
    rcases Bool.eq_false_or_eq_true (gameOver b) with hg | hg
    · simp only [abRunF, abF, hg, if_true]
    · cases maxing
      · simp only [abRunF, abF, hg, Bool.false_eq_true, if_false, Bool.not_false]
        exact abRunLoopMin_v _ _ (fun c a' bet' => abRunF_v pid n _ _ a' bet') _ _ _ _
      · simp only [abRunF, abF, hg, Bool.false_eq_true, if_false, Bool.not_true]
        exact abRunLoopMax_v _ _ (fun c a' bet' => abRunF_v pid n _ _ a' bet') _ _ _ _

theorem abRoot_eq_mmRoot (pid n : ℕ) (b : Board) :
    ∀ (cs : List ℕ) (best : Option ℕ) (bv : Score) (k : ℕ) (cut skip : Bool),
      bv < ⊤ →
      ((abRoot pid n b cs ⟨best, bv, k, cut, skip⟩).best,
       (abRoot pid n b cs ⟨best, bv, k, cut, skip⟩).bv) = mmRoot pid n b cs (best, bv)
  | [], best, bv, k, cut, skip, _ => rfl
  | c :: cs, best, bv, k, cut, skip, hbv => by
    have hv := abRunF_v pid n (makeMove b c pid) false bv ⊤
    have hkm := abF_km pid n (makeMove b c pid) false bv ⊤ hbv
    have htop := abF_lt_top pid n (makeMove b c pid) false bv ⊤
    simp only [abRoot, mmRoot, hv]
    by_cases hlt : bv < abF pid n (makeMove b c pid) false bv ⊤
    · have heq : abF pid n (makeMove b c pid) false bv ⊤ =
          minimaxF pid n (makeMove b c pid) false := hkm.2.1 hlt htop
      rw [if_pos hlt, if_pos (heq ▸ hlt), ← heq]
      exact abRoot_eq_mmRoot pid n b cs (some c) _ _ _ _ (lt_of_lt_of_le htop le_rfl)
  -- htop : abF ... < ⊤ gives the new best below top
    · have hle : abF pid n (makeMove b c pid) false bv ⊤ ≤ bv := not_lt.mp hlt
      have hgle : minimaxF pid n (makeMove b c pid) false ≤ bv := le_trans (hkm.1 hle) hle
      rw [if_neg hlt, if_neg (not_lt.mpr hgle)]
      exact abRoot_eq_mmRoot pid n b cs best bv _ _ _ hbv

theorem mmCnt_pos (pid : ℕ) : ∀ (n : ℕ) (b : Board) (maxing : Bool),
    1 ≤ mmCnt pid n b maxing
  | 0, _, _ => le_rfl
  | n+1, b, maxing => by
    simp only [mmCnt]
    split
    · exact le_rfl
    · exact Nat.le_add_right 1 _

theorem abRunLoopMax_k_le (fr : ℕ → Score → Score → ABOut) (mc : ℕ → ℕ)
    (hk : ∀ c a' bet', (fr c a' bet').k ≤ mc c) :
    ∀ (cs : List ℕ) (v a bet : Score),
      (abRunLoopMax fr cs v a bet).k ≤ (cs.map mc).sum
  | [], _, _, _ => Nat.zero_le _
  | c :: cs, v, a, bet => by
    simp only [abRunLoopMax, List.map_cons, List.sum_cons]
    split
    · exact le_trans (hk c a bet) (Nat.le_add_right _ _)
    · exact Nat.add_le_add (hk c a bet) (abRunLoopMax_k_le fr mc hk cs _ _ _)

theorem abRunLoopMin_k_le (fr : ℕ → Score → Score → ABOut) (mc : ℕ → ℕ)
    (hk : ∀ c a' bet', (fr c a' bet').k ≤ mc c) :
    ∀ (cs : List ℕ) (v a bet : Score),
      (abRunLoopMin fr cs v a bet).k ≤ (cs.map mc).sum
  | [], _, _, _ => Nat.zero_le _
  | c :: cs, v, a, bet => by
    simp only [abRunLoopMin, List.map_cons, List.sum_cons]
    split
    · exact le_trans (hk c a bet) (Nat.le_add_right _ _)
    · exact Nat.add_le_add (hk c a bet) (abRunLoopMin_k_le fr mc hk cs _ _ _)

theorem abRunF_k_le (pid : ℕ) : ∀ (n : ℕ) (b : Board) (maxing : Bool) (a bet : Score),
    (abRunF pid n b maxing a bet).k ≤ mmCnt pid n b maxing
  | 0, _, _, _, _ => le_rfl
  | n+1, b, maxing, a, bet => by
    rcases Bool.eq_false_or_eq_true (gameOver b) with hg | hg
    · simp only [abRunF, mmCnt, hg, if_true]
      exact le_rfl
    · cases maxing
      · simp only [abRunF, mmCnt, hg, Bool.false_eq_true, if_false, Bool.not_false]
        exact Nat.add_le_add le_rfl
          (abRunLoopMin_k_le
            (fun c a' bet' => abRunF pid n (makeMove b c (opp pid)) true a' bet')
            (fun c => mmCnt pid n (makeMove b c (opp pid)) true)
            (fun c a' bet' => abRunF_k_le pid n (makeMove b c (opp pid)) true a' bet')
            (legalMoves b) ⊤ a bet)
      · simp only [abRunF, mmCnt, hg, Bool.false_eq_true, if_false, Bool.not_true]
        exact Nat.add_le_add le_rfl
          (abRunLoopMax_k_le
            (fun c a' bet' => abRunF pid n (makeMove b c pid) false a' bet')
            (fun c => mmCnt pid n (makeMove b c pid) false)
            (fun c a' bet' => abRunF_k_le pid n (makeMove b c pid) false a' bet')
            (legalMoves b) ⊥ a bet)

theorem sum_map_pos (mc : ℕ → ℕ) (hpos : ∀ c, 1 ≤ mc c) :
    ∀ (cs : List ℕ), cs ≠ [] → 1 ≤ (cs.map mc).sum
  | [], h => absurd rfl h
  | c :: cs, _ => by
    simp only [List.map_cons, List.sum_cons]
    exact le_trans (hpos c) (Nat.le_add_right _ _)

theorem abRunLoopMax_k_lt (fr : ℕ → Score → Score → ABOut) (mc : ℕ → ℕ)
    (hk : ∀ c a' bet', (fr c a' bet').k ≤ mc c)
    (hks : ∀ c a' bet', (fr c a' bet').skip = true → (fr c a' bet').k < mc c)
    (hpos : ∀ c, 1 ≤ mc c) :
    ∀ (cs : List ℕ) (v a bet : Score),
      (abRunLoopMax fr cs v a bet).skip = true →
      (abRunLoopMax fr cs v a bet).k < (cs.map mc).sum
  | [], _, _, _, h => by simp [abRunLoopMax] at h
  | c :: cs, v, a, bet, h => by
    simp only [abRunLoopMax, List.map_cons, List.sum_cons] at h ⊢
    by_cases hcond : bet ≤ max a (max v (fr c a bet).v)
    · rw [if_pos hcond] at h ⊢
      simp only [Bool.or_eq_true] at h
      rcases h with h | h
      · exact lt_of_lt_of_le (hks c a bet h) (Nat.le_add_right _ _)
      · have hcs : cs ≠ [] := by
          cases cs
          · simp at h
          · exact List.cons_ne_nil _ _
        exact lt_of_le_of_lt (hk c a bet)
          (Nat.lt_add_of_pos_right (sum_map_pos mc hpos cs hcs))
    · rw [if_neg hcond] at h ⊢
      simp only [Bool.or_eq_true] at h
      rcases h with h | h
      · exact Nat.add_lt_add_of_lt_of_le (hks c a bet h)
          (abRunLoopMax_k_le fr mc hk cs _ _ _)
      · exact Nat.add_lt_add_of_le_of_lt (hk c a bet)
          (abRunLoopMax_k_lt fr mc hk hks hpos cs _ _ _ h)

theorem abRunLoopMin_k_lt (fr : ℕ → Score → Score → ABOut) (mc : ℕ → ℕ)
    (hk : ∀ c a' bet', (fr c a' bet').k ≤ mc c)
    (hks : ∀ c a' bet', (fr c a' bet').skip = true → (fr c a' bet').k < mc c)
    (hpos : ∀ c, 1 ≤ mc c) :
    ∀ (cs : List ℕ) (v a bet : Score),
      (abRunLoopMin fr cs v a bet).skip = true →
      (abRunLoopMin fr cs v a bet).k < (cs.map mc).sum
  | [], _, _, _, h => by simp [abRunLoopMin] at h
  | c :: cs, v, a, bet, h => by
    simp only [abRunLoopMin, List.map_cons, List.sum_cons] at h ⊢
    by_cases hcond : min bet (min v (fr c a bet).v) ≤ a
    · rw [if_pos hcond] at h ⊢
      simp only [Bool.or_eq_true] at h
      rcases h with h | h
      · exact lt_of_lt_of_le (hks c a bet h) (Nat.le_add_right _ _)
      · have hcs : cs ≠ [] := by
          cases cs
          · simp at h
          · exact List.cons_ne_nil _ _
        exact lt_of_le_of_lt (hk c a bet)
          (Nat.lt_add_of_pos_right (sum_map_pos mc hpos cs hcs))
    · rw [if_neg hcond] at h ⊢
      simp only [Bool.or_eq_true] at h
      rcases h with h | h
      · exact Nat.add_lt_add_of_lt_of_le (hks c a bet h)
          (abRunLoopMin_k_le fr mc hk cs _ _ _)
      · exact Nat.add_lt_add_of_le_of_lt (hk c a bet)
          (abRunLoopMin_k_lt fr mc hk hks hpos cs _ _ _ h)

theorem abRunF_k_lt (pid : ℕ) : ∀ (n : ℕ) (b : Board) (maxing : Bool) (a bet : Score),
    (abRunF pid n b maxing a bet).skip = true →
    (abRunF pid n b maxing a bet).k < mmCnt pid n b maxing
  | 0, _, _, _, _, h => by simp [abRunF] at h
  | n+1, b, maxing, a, bet, h => by
    rcases Bool.eq_false_or_eq_true (gameOver b) with hg | hg
    · simp [abRunF, hg] at h
    · cases maxing
      · simp only [abRunF, mmCnt, hg, Bool.false_eq_true, if_false, Bool.not_false] at h ⊢
        exact Nat.add_lt_add_of_le_of_lt le_rfl
          (abRunLoopMin_k_lt
            (fun c a' bet' => abRunF pid n (makeMove b c (opp pid)) true a' bet')
            (fun c => mmCnt pid n (makeMove b c (opp pid)) true)
            (fun c a' bet' => abRunF_k_le pid n (makeMove b c (opp pid)) true a' bet')
            (fun c a' bet' => abRunF_k_lt pid n (makeMove b c (opp pid)) true a' bet')
            (fun c => mmCnt_pos pid n (makeMove b c (opp pid)) true)
            (legalMoves b) ⊤ a bet h)
      · simp only [abRunF, mmCnt, hg, Bool.false_eq_true, if_false, Bool.not_true] at h ⊢
        exact Nat.add_lt_add_of_le_of_lt le_rfl
          (abRunLoopMax_k_lt
            (fun c a' bet' => abRunF pid n (makeMove b c pid) false a' bet')
            (fun c => mmCnt pid n (makeMove b c pid) false)
            (fun c a' bet' => abRunF_k_le pid n (makeMove b c pid) false a' bet')
            (fun c a' bet' => abRunF_k_lt pid n (makeMove b c pid) false a' bet')
            (fun c => mmCnt_pos pid n (makeMove b c pid) false)
            (legalMoves b) ⊥ a bet h)

theorem abRoot_k_le (pid n : ℕ) (b : Board) :
    ∀ (cs : List ℕ) (st : ABRootSt),
      (abRoot pid n b cs st).k ≤
        st.k + (cs.map fun c => mmCnt pid n (makeMove b c pid) false).sum
  | [], st => Nat.le_add_right _ _
  | c :: cs, st => by
    simp only [abRoot, List.map_cons, List.sum_cons]
    have hko := abRunF_k_le pid n (makeMove b c pid) false st.bv ⊤
    by_cases hlt : st.bv < (abRunF pid n (makeMove b c pid) false st.bv ⊤).v
    · rw [if_pos hlt]
      refine le_trans (abRoot_k_le pid n b cs _) ?_
      simp only []
      omega
    · rw [if_neg hlt]
      refine le_trans (abRoot_k_le pid n b cs _) ?_
      simp only []
      omega

theorem abRoot_skip_lt (pid n : ℕ) (b : Board) :
    ∀ (cs : List ℕ) (st : ABRootSt), st.skip = false →
      (abRoot pid n b cs st).skip = true →
      (abRoot pid n b cs st).k <
        st.k + (cs.map fun c => mmCnt pid n (makeMove b c pid) false).sum
  | [], st, hs, hs' => by
    rw [abRoot] at hs'
    rw [hs] at hs'
    exact absurd hs' (by simp)
  | c :: cs, st, hs, hs' => by
    simp only [abRoot, List.map_cons, List.sum_cons] at hs' ⊢
    have hko := abRunF_k_le pid n (makeMove b c pid) false st.bv ⊤
    rcases Bool.eq_false_or_eq_true (abRunF pid n (makeMove b c pid) false st.bv ⊤).skip
      with hsk | hsk
    · -- the child itself pruned with a sibling remaining: strict via the child
      have hklt := abRunF_k_lt pid n (makeMove b c pid) false st.bv ⊤ hsk
      by_cases hlt : st.bv < (abRunF pid n (makeMove b c pid) false st.bv ⊤).v
      · rw [if_pos hlt]
        refine lt_of_le_of_lt (abRoot_k_le pid n b cs _) ?_
        simp only []
        omega
      · rw [if_neg hlt]
        refine lt_of_le_of_lt (abRoot_k_le pid n b cs _) ?_
        simp only []
        omega
    · -- no skip in this child: the later state still has skip = false
      by_cases hlt : st.bv < (abRunF pid n (makeMove b c pid) false st.bv ⊤).v
      · rw [if_pos hlt] at hs' ⊢
        have := abRoot_skip_lt pid n b cs _ (by simp [hs, hsk]) hs'
        simp only [] at this ⊢
        omega
      · rw [if_neg hlt] at hs' ⊢
        have := abRoot_skip_lt pid n b cs _ (by simp [hs, hsk]) hs'
        simp only [] at this ⊢
        omega

/-! ## The alpha-beta refinement, assembled -/

theorem get_move_ab_eq_get_move (pid : ℕ) (d : ℤ) (b : Board) :
    get_move_ab pid d b = get_move pid d b := by
  have h := abRoot_eq_mmRoot pid (d - 1).toNat b (legalMoves b) none ⊥ 0 false false
    bot_lt_top
  simpa [get_move_ab, get_move, abRootRun] using h

theorem abTotalNodes_le (pid : ℕ) (d : ℤ) (b : Board) :
    abTotalNodes pid d b ≤ mmTotalNodes pid d b := by
  have h := abRoot_k_le pid (d - 1).toNat b (legalMoves b) ⟨none, ⊥, 0, false, false⟩
  simpa [abTotalNodes, abRootRun, mmTotalNodes] using h

theorem abTotalNodes_lt (pid : ℕ) (d : ℤ) (b : Board)
    (h : abSkipHappened pid d b = true) : abTotalNodes pid d b < mmTotalNodes pid d b := by
  have h' := abRoot_skip_lt pid (d - 1).toNat b (legalMoves b) ⟨none, ⊥, 0, false, false⟩
    rfl (by simpa [abSkipHappened, abRootRun] using h)
  simpa [abTotalNodes, abRootRun, mmTotalNodes] using h'

/-! ## Bridges between the counting subclasses and the plain search -/

theorem cmFoldMax_eq (F : ℕ → ℕ → Score × ℕ) (g : ℕ → Score) (cnt : ℕ → ℕ)
    (hF : ∀ c k, F c k = (g c, k + cnt c)) :
    ∀ (cs : List ℕ) (v : Score) (k : ℕ),
      cs.foldl (fun acc c => (max acc.1 (F c acc.2).1, (F c acc.2).2)) (v, k)
        = (cs.foldl (fun a c => max a (g c)) v, k + (cs.map cnt).sum)
  | [], v, k => by simp
  | c :: cs, v, k => by
    simp only [List.foldl_cons, hF c k, List.map_cons, List.sum_cons]
    rw [cmFoldMax_eq F g cnt hF cs (max v (g c)) (k + cnt c)]
    congr 1
    omega

theorem cmFoldMin_eq (F : ℕ → ℕ → Score × ℕ) (g : ℕ → Score) (cnt : ℕ → ℕ)
    (hF : ∀ c k, F c k = (g c, k + cnt c)) :
    ∀ (cs : List ℕ) (v : Score) (k : ℕ),
      cs.foldl (fun acc c => (min acc.1 (F c acc.2).1, (F c acc.2).2)) (v, k)
        = (cs.foldl (fun a c => min a (g c)) v, k + (cs.map cnt).sum)
  | [], v, k => by simp
  | c :: cs, v, k => by
    simp only [List.foldl_cons, hF c k, List.map_cons, List.sum_cons]
    rw [cmFoldMin_eq F g cnt hF cs (min v (g c)) (k + cnt c)]
    congr 1
    omega

theorem cminimaxF_eq (pid : ℕ) : ∀ (n : ℕ) (b : Board) (maxing : Bool) (k : ℕ),
    cminimaxF pid n b maxing k = (minimaxF pid n b maxing, k + mmCnt pid n b maxing)
  | 0, b, maxing, k => rfl
  | n+1, b, maxing, k => by
    rcases Bool.eq_false_or_eq_true (gameOver b) with hg | hg
    · simp only [cminimaxF, minimaxF, mmCnt, hg, if_true]
    · cases maxing
      · simp only [cminimaxF, minimaxF, mmCnt, hg, Bool.false_eq_true, if_false,
          Bool.not_false, eq_self_iff_true, if_true]
        refine (cmFoldMin_eq
          (fun c k' => cminimaxF pid n (makeMove b c (opp pid)) true k')
          (fun c => minimaxF pid n (makeMove b c (opp pid)) true)
          (fun c => mmCnt pid n (makeMove b c (opp pid)) true)
          (fun c k' => cminimaxF_eq pid n (makeMove b c (opp pid)) true k')
          (legalMoves b) ⊤ (k + 1)).trans ?_
        rw [← List.foldl_map]
        congr 1
        omega
      · simp only [cminimaxF, minimaxF, mmCnt, hg, Bool.false_eq_true, if_false,
          Bool.not_true, eq_self_iff_true, if_true]
        refine (cmFoldMax_eq
          (fun c k' => cminimaxF pid n (makeMove b c pid) false k')
          (fun c => minimaxF pid n (makeMove b c pid) false)
          (fun c => mmCnt pid n (makeMove b c pid) false)
          (fun c k' => cminimaxF_eq pid n (makeMove b c pid) false k')
          (legalMoves b) ⊥ (k + 1)).trans ?_
        rw [← List.foldl_map]
        congr 1
        omega

theorem cmmRoot_eq (pid n : ℕ) (b : Board) :
    ∀ (cs : List ℕ) (best : Option ℕ) (bv : Score) (k : ℕ),
      cmmRoot pid n b cs (best, bv) k =
        (mmRoot pid n b cs (best, bv),
         k + (cs.map fun c => mmCnt pid n (makeMove b c pid) false).sum)
  | [], best, bv, k => by simp [cmmRoot, mmRoot]
  | c :: cs, best, bv, k => by
    simp only [cmmRoot, mmRoot, cminimaxF_eq pid n (makeMove b c pid) false k,
      List.map_cons, List.sum_cons]
    by_cases hlt : bv < minimaxF pid n (makeMove b c pid) false
    · rw [if_pos hlt, if_pos hlt, cmmRoot_eq pid n b cs (some c) _ _]
      congr 1
      omega
    · rw [if_neg hlt, if_neg hlt, cmmRoot_eq pid n b cs best bv _]
      congr 1
      omega

theorem cm_get_move_eq (ai : CountingMinimax) (b : Board) :
    ai.get_move b =
      ((get_move ai.player_id ai.depth b).1,
       ⟨ai.player_id, ai.depth, ai.nodes + mmTotalNodes ai.player_id ai.depth b⟩) := by
  simp [CountingMinimax.get_move, get_move, mmTotalNodes, cmmRoot_eq]

theorem cabLoopMax_eq (F : ℕ → Score → Score → ℕ → Score × ℕ)
    (fp : ℕ → Score → Score → Score) (fr : ℕ → Score → Score → ABOut)
    (hF : ∀ c a' bet' k, F c a' bet' k = (fp c a' bet', k + (fr c a' bet').k))
    (hv : ∀ c a' bet', (fr c a' bet').v = fp c a' bet') :
    ∀ (cs : List ℕ) (v a bet : Score) (k : ℕ),
      cabLoopMax F cs v a bet k =
        (abLoopMax fp cs v a bet, k + (abRunLoopMax fr cs v a bet).k)
  | [], v, a, bet, k => by simp [cabLoopMax, abLoopMax, abRunLoopMax]
  | c :: cs, v, a, bet, k => by
    simp only [cabLoopMax, abLoopMax, abRunLoopMax, hF c a bet k, hv c a bet]
    by_cases hcond : bet ≤ max a (max v (fp c a bet))
    · rw [if_pos hcond, if_pos hcond, if_pos hcond]
    · rw [if_neg hcond, if_neg hcond, if_neg hcond,
        cabLoopMax_eq F fp fr hF hv cs _ _ _ _]
      dsimp only
      congr 1
      omega

theorem cabLoopMin_eq (F : ℕ → Score → Score → ℕ → Score × ℕ)
    (fp : ℕ → Score → Score → Score) (fr : ℕ → Score → Score → ABOut)
    (hF : ∀ c a' bet' k, F c a' bet' k = (fp c a' bet', k + (fr c a' bet').k))
    (hv : ∀ c a' bet', (fr c a' bet').v = fp c a' bet') :
    ∀ (cs : List ℕ) (v a bet : Score) (k : ℕ),
      cabLoopMin F cs v a bet k =
        (abLoopMin fp cs v a bet, k + (abRunLoopMin fr cs v a bet).k)
  | [], v, a, bet, k => by simp [cabLoopMin, abLoopMin, abRunLoopMin]
  | c :: cs, v, a, bet, k => by
    simp only [cabLoopMin, abLoopMin, abRunLoopMin, hF c a bet k, hv c a bet]
    by_cases hcond : min bet (min v (fp c a bet)) ≤ a
    · rw [if_pos hcond, if_pos hcond, if_pos hcond]
    · rw [if_neg hcond, if_neg hcond, if_neg hcond,
        cabLoopMin_eq F fp fr hF hv cs _ _ _ _]
      dsimp only
      congr 1
      omega

theorem cabF_eq (pid : ℕ) : ∀ (n : ℕ) (b : Board) (maxing : Bool) (a bet : Score) (k : ℕ),
    cabF pid n b maxing a bet k =
      (abF pid n b maxing a bet, k + (abRunF pid n b maxing a bet).k)
  | 0, b, maxing, a, bet, k => rfl
  | n+1, b, maxing, a, bet, k => by
    rcases Bool.eq_false_or_eq_true (gameOver b) with hg | hg
    · simp only [cabF, abF, abRunF, hg, if_true]
    · cases maxing
      · simp only [cabF, abF, abRunF, hg, Bool.false_eq_true, if_false, Bool.not_false, eq_self_iff_true, if_true]
        refine (cabLoopMin_eq
          (fun c a' bet' k' => cabF pid n (makeMove b c (opp pid)) true a' bet' k')
          (fun c a' bet' => abF pid n (makeMove b c (opp pid)) true a' bet')
          (fun c a' bet' => abRunF pid n (makeMove b c (opp pid)) true a' bet')
          (fun c a' bet' k' => cabF_eq pid n (makeMove b c (opp pid)) true a' bet' k')
          (fun c a' bet' => abRunF_v pid n (makeMove b c (opp pid)) true a' bet')
          (legalMoves b) ⊤ a bet (k + 1)).trans ?_
        congr 1
        omega
      · simp only [cabF, abF, abRunF, hg, Bool.false_eq_true, if_false, Bool.not_true, eq_self_iff_true, if_true]
        refine (cabLoopMax_eq
          (fun c a' bet' k' => cabF pid n (makeMove b c pid) false a' bet' k')
          (fun c a' bet' => abF pid n (makeMove b c pid) false a' bet')
          (fun c a' bet' => abRunF pid n (makeMove b c pid) false a' bet')
          (fun c a' bet' k' => cabF_eq pid n (makeMove b c pid) false a' bet' k')
          (fun c a' bet' => abRunF_v pid n (makeMove b c pid) false a' bet')
          (legalMoves b) ⊥ a bet (k + 1)).trans ?_
        congr 1
        omega

theorem abRoot_shift (pid n : ℕ) (b : Board) :
    ∀ (cs : List ℕ) (best : Option ℕ) (bv : Score) (k : ℕ) (cut skip : Bool),
      (abRoot pid n b cs ⟨best, bv, k, cut, skip⟩).best =
        (abRoot pid n b cs ⟨best, bv, 0, false, false⟩).best ∧
      (abRoot pid n b cs ⟨best, bv, k, cut, skip⟩).bv =
        (abRoot pid n b cs ⟨best, bv, 0, false, false⟩).bv ∧
      (abRoot pid n b cs ⟨best, bv, k, cut, skip⟩).k =
        k + (abRoot pid n b cs ⟨best, bv, 0, false, false⟩).k
  | [], best, bv, k, cut, skip => ⟨rfl, rfl, rfl⟩
  | c :: cs, best, bv, k, cut, skip => by
    simp only [abRoot]
    by_cases hlt : bv < (abRunF pid n (makeMove b c pid) false bv ⊤).v
    · rw [if_pos hlt, if_pos hlt]
      obtain ⟨h1, h2, h3⟩ := abRoot_shift pid n b cs (some c)
        (abRunF pid n (makeMove b c pid) false bv ⊤).v
        (k + (abRunF pid n (makeMove b c pid) false bv ⊤).k)
        (cut || (abRunF pid n (makeMove b c pid) false bv ⊤).cut)
        (skip || (abRunF pid n (makeMove b c pid) false bv ⊤).skip)
      obtain ⟨h1', h2', h3'⟩ := abRoot_shift pid n b cs (some c)
        (abRunF pid n (makeMove b c pid) false bv ⊤).v
        (0 + (abRunF pid n (makeMove b c pid) false bv ⊤).k)
        (false || (abRunF pid n (makeMove b c pid) false bv ⊤).cut)
        (false || (abRunF pid n (makeMove b c pid) false bv ⊤).skip)
      refine ⟨h1.trans h1'.symm, h2.trans h2'.symm, ?_⟩
      rw [h3, h3']
      omega
    · rw [if_neg hlt, if_neg hlt]
      obtain ⟨h1, h2, h3⟩ := abRoot_shift pid n b cs best bv
        (k + (abRunF pid n (makeMove b c pid) false bv ⊤).k)
        (cut || (abRunF pid n (makeMove b c pid) false bv ⊤).cut)
        (skip || (abRunF pid n (makeMove b c pid) false bv ⊤).skip)
      obtain ⟨h1', h2', h3'⟩ := abRoot_shift pid n b cs best bv
        (0 + (abRunF pid n (makeMove b c pid) false bv ⊤).k)
        (false || (abRunF pid n (makeMove b c pid) false bv ⊤).cut)
        (false || (abRunF pid n (makeMove b c pid) false bv ⊤).skip)
      refine ⟨h1.trans h1'.symm, h2.trans h2'.symm, ?_⟩
      rw [h3, h3']
      omega

theorem cabRoot_eq (pid n : ℕ) (b : Board) :
    ∀ (cs : List ℕ) (best : Option ℕ) (bv : Score) (k : ℕ),
      cabRoot pid n b cs (best, bv) k =
        (((abRoot pid n b cs ⟨best, bv, k, false, false⟩).best,
          (abRoot pid n b cs ⟨best, bv, k, false, false⟩).bv),
         (abRoot pid n b cs ⟨best, bv, k, false, false⟩).k)
  | [], best, bv, k => rfl
  | c :: cs, best, bv, k => by
    simp only [cabRoot, abRoot, cabF_eq pid n (makeMove b c pid) false bv ⊤ k,
      abRunF_v pid n (makeMove b c pid) false bv ⊤]
    by_cases hlt : bv < abF pid n (makeMove b c pid) false bv ⊤
    · rw [if_pos hlt, if_pos hlt,
        cabRoot_eq pid n b cs (some c) _ _]
      obtain ⟨h1, h2, h3⟩ := abRoot_shift pid n b cs (some c)
        (abRunF pid n (makeMove b c pid) false bv ⊤).v
        (k + (abRunF pid n (makeMove b c pid) false bv ⊤).k)
        false false
      obtain ⟨h1', h2', h3'⟩ := abRoot_shift pid n b cs (some c)
        (abRunF pid n (makeMove b c pid) false bv ⊤).v
        (k + (abRunF pid n (makeMove b c pid) false bv ⊤).k)
        (false || (abRunF pid n (makeMove b c pid) false bv ⊤).cut)
        (false || (abRunF pid n (makeMove b c pid) false bv ⊤).skip)
      rw [abRunF_v] at h1 h2 h3 h1' h2' h3'
      rw [h1, h2, h3, h1', h2', h3']
    · rw [if_neg hlt, if_neg hlt,
        cabRoot_eq pid n b cs best bv _]
      obtain ⟨h1, h2, h3⟩ := abRoot_shift pid n b cs best bv
        (k + (abRunF pid n (makeMove b c pid) false bv ⊤).k) false false
      obtain ⟨h1', h2', h3'⟩ := abRoot_shift pid n b cs best bv
        (k + (abRunF pid n (makeMove b c pid) false bv ⊤).k)
        (false || (abRunF pid n (makeMove b c pid) false bv ⊤).cut)
        (false || (abRunF pid n (makeMove b c pid) false bv ⊤).skip)
      rw [h1, h2, h3, h1', h2', h3']

theorem cab_get_move_eq (ai : CountingAlphaBeta) (b : Board) :
    ai.get_move b =
      ((get_move_ab ai.player_id ai.depth b).1,
       ⟨ai.player_id, ai.depth, ai.nodes + abTotalNodes ai.player_id ai.depth b⟩) := by
  have h := cabRoot_eq ai.player_id (ai.depth - 1).toNat b (legalMoves b) none ⊥ ai.nodes
  have hs := abRoot_shift ai.player_id (ai.depth - 1).toNat b (legalMoves b) none ⊥
    ai.nodes false false
  simp only [CountingAlphaBeta.get_move, get_move_ab, abTotalNodes, abRootRun, h,
    hs.1, hs.2.1, hs.2.2]

/-! ## Properties of board generation -/

theorem gMakeMove_over (g : Game) (c : ℕ) (h : g.over = gameOver g.board) :
    (gMakeMove g c).over = gameOver (gMakeMove g c).board := by
  simp only [gMakeMove]
  split
  · rfl
  · exact h

theorem genInner_over (s : ℕ → ℕ) : ∀ (t : ℕ) (g : Game) (i : ℕ),
    g.over = gameOver g.board →
    (genInner s t g i).1.over = gameOver (genInner s t g i).1.board
  | 0, g, i, h => h
  | t+1, g, i, h => by
    simp only [genInner]
    split
    · exact genInner_over s t g i h
    · split
      · exact genInner_over s t _ _ (gMakeMove_over g _ h)
      · exact genInner_over s t g _ h

theorem genInner_reach (s : ℕ → ℕ) : ∀ (t : ℕ) (g : Game) (i j : ℕ),
    Reach j g → ∃ j', j' ≤ j + t ∧ Reach j' (genInner s t g i).1
  | 0, g, i, j, h => ⟨j, Nat.le_add_right j 0, h⟩
  | t+1, g, i, j, h => by
    simp only [genInner]
    split
    · obtain ⟨j', hj, hr⟩ := genInner_reach s t g i j h
      exact ⟨j', by omega, hr⟩
    · split
      · rcases Bool.eq_false_or_eq_true
          (isValidMove g.board (randint 0 6 s (randint 0 6 s i).2).1) with hv | hv
        · obtain ⟨j', hj, hr⟩ := genInner_reach s t (gMakeMove g _) _ (j+1)
            (Reach.step _ h hv)
          exact ⟨j', by omega, hr⟩
        · have hnop : gMakeMove g (randint 0 6 s (randint 0 6 s i).2).1 = g := by
            simp [gMakeMove, hv]
          rw [hnop]
          obtain ⟨j', hj, hr⟩ := genInner_reach s t g _ j h
          exact ⟨j', by omega, hr⟩
      · obtain ⟨j', hj, hr⟩ := genInner_reach s t g _ j h
        exact ⟨j', by omega, hr⟩

theorem newGame_over : newGame.over = gameOver newGame.board := rfl

theorem generate_boards_spec (s : ℕ → ℕ) : ∀ (m i : ℕ) (b : Board),
    b ∈ generate_boards s m i →
    gameOver b = false ∧ ∃ j g, j ≤ 15 ∧ Reach j g ∧ g.board = b
  | m+1, i, b, h => by
    simp only [generate_boards] at h
    split at h
    · exact generate_boards_spec s m _ b h
    · next hover =>
      rcases List.mem_cons.mp h with hb | hb
      · subst hb
        constructor
        · have hinv := genInner_over s (randint 8 15 s i).1 newGame (randint 8 15 s i).2
            newGame_over
          rw [← hinv]
          exact Bool.not_eq_true _ ▸ (Bool.eq_false_iff.mpr hover)
        · obtain ⟨j', hj, hr⟩ := genInner_reach s (randint 8 15 s i).1 newGame
            (randint 8 15 s i).2 0 Reach.start
          refine ⟨j',
            (genInner s (randint 8 15 s i).1 newGame (randint 8 15 s i).2).1, ?_, hr, rfl⟩
          have hmod : s i % 8 < 8 := Nat.mod_lt _ (by norm_num)
          simp only [randint] at hj ⊢
          omega
      · exact generate_boards_spec s m _ b hb

/-! ## Properties of the benchmark loop -/

theorem depthLoop_spec (tmM tmA : ℤ → Board → ℚ) (d : ℤ) :
    ∀ (bs : List Board) (acc : DepthAcc),
      depthLoop tmM tmA d bs acc =
        ⟨acc.mmTrace ++ bs, acc.abTrace ++ bs,
         acc.mmTime + (bs.map (tmM d)).sum, acc.abTime + (bs.map (tmA d)).sum,
         acc.mmNodes + (bs.map (mmTotalNodes 1 d)).sum,
         acc.abNodes + (bs.map (abTotalNodes 1 d)).sum⟩
  | [], acc => by simp [depthLoop]
  | b :: bs, acc => by
    simp only [depthLoop, cm_get_move_eq, cab_get_move_eq,
      depthLoop_spec tmM tmA d bs, List.map_cons, List.sum_cons]
    simp only [CountingMinimax.make, CountingAlphaBeta.make]
    congr 1
    · simp
    · simp
    · exact add_assoc _ _ _
    · exact add_assoc _ _ _
    · omega
    · omega

theorem runDepth_spec (tmM tmA : ℤ → Board → ℚ) (bs : List Board) (d : ℤ) :
    runDepth tmM tmA bs d =
      ⟨bs, bs, (bs.map (tmM d)).sum, (bs.map (tmA d)).sum,
       (bs.map (mmTotalNodes 1 d)).sum, (bs.map (abTotalNodes 1 d)).sum⟩ := by
  simp [runDepth, depthLoop_spec]

/-! ## Digit strings: round trips for the filename helpers -/

theorem digitVal_digitChar : ∀ d, d < 10 → digitVal (digitChar d) = d := by decide

theorem isDigitCh_digitChar : ∀ d, d < 10 → isDigitCh (digitChar d) = true := by decide

theorem isDigitCh_ne (c : Char) (h : isDigitCh c = true) :
    c ≠ '-' ∧ c ≠ 'k' ∧ c ≠ 'M' ∧ c ≠ '_' ∧ c ≠ '/' ∧ c ≠ 'p' := by
  refine ⟨?_, ?_, ?_, ?_, ?_, ?_⟩ <;> rintro rfl <;> exact absurd h (by decide)

theorem natCharsAux_all_digits : ∀ (f n : ℕ), ∀ c ∈ natCharsAux f n, isDigitCh c = true
  | _, 0, c, hc => by simp [natCharsAux] at hc
  | 0, _+1, c, hc => by simp [natCharsAux] at hc
  | f+1, n+1, c, hc => by
    simp only [natCharsAux, List.mem_append, List.mem_singleton] at hc
    rcases hc with hc | hc
    · exact natCharsAux_all_digits f ((n+1) / 10) c hc
    · subst hc
      exact isDigitCh_digitChar _ (Nat.mod_lt _ (by norm_num))

theorem natCharsAux_fold : ∀ (f n : ℕ), n ≤ f → ∀ a : ℕ,
    (natCharsAux f n).foldl (fun x c => x * 10 + digitVal c) a =
      a * 10 ^ (natCharsAux f n).length + n
  | f, 0, _, a => by simp [natCharsAux]
  | 0, n+1, h, a => absurd h (by omega)
  | f+1, n+1, h, a => by
    have hq : (n+1) / 10 ≤ f := by
      have h1 : (n+1) / 10 < n + 1 := Nat.div_lt_self (Nat.succ_pos n) (by norm_num)
      omega
    simp only [natCharsAux, List.foldl_append, List.foldl_cons, List.foldl_nil,
      List.length_append, List.length_singleton]
    rw [natCharsAux_fold f ((n+1) / 10) hq a,
      digitVal_digitChar _ (Nat.mod_lt _ (by norm_num))]
    have hdm : 10 * ((n+1) / 10) + (n+1) % 10 = n + 1 := Nat.div_add_mod (n+1) 10
    rw [pow_succ]
    ring_nf
    omega

theorem natCharsAux_ne_nil : ∀ (f n : ℕ), 0 < n → n ≤ f → natCharsAux f n ≠ []
  | 0, n, hn, hf => absurd hf (by omega)
  | f+1, n+1, _, _ => by
    simp only [natCharsAux]
    exact fun h => absurd h (List.append_ne_nil_of_right_ne_nil _ (by simp))

theorem natChars_all_digits (m : ℕ) : ∀ c ∈ natChars m, isDigitCh c = true := by
  intro c hc
  by_cases hm : m = 0
  · subst hm
    simp only [natChars, eq_self_iff_true, if_true, List.mem_singleton] at hc
    subst hc
    decide
  · simp only [natChars, if_neg hm] at hc
    exact natCharsAux_all_digits m m c hc

theorem natChars_ne_nil (m : ℕ) : natChars m ≠ [] := by
  by_cases hm : m = 0
  · subst hm
    simp [natChars]
  · simp only [natChars, if_neg hm]
    exact natCharsAux_ne_nil m m (Nat.pos_of_ne_zero hm) le_rfl

theorem natChars_fold (m : ℕ) :
    (natChars m).foldl (fun x c => x * 10 + digitVal c) 0 = m := by
  by_cases hm : m = 0
  · subst hm
    rfl
  · simp only [natChars, if_neg hm]
    rw [natCharsAux_fold m m le_rfl 0]
    simp

theorem parseNatChars_natChars (m : ℕ) : parseNatChars (natChars m) = some m := by
  rw [parseNatChars,
    if_pos ⟨natChars_ne_nil m, List.all_eq_true.mpr (natChars_all_digits m)⟩,
    natChars_fold m]

theorem headD_not_dash (cs : List Char) (hne : cs ≠ [])
    (hdig : ∀ c ∈ cs, isDigitCh c = true) : (cs.headD ' ' = '-') = False := by
  rcases cs with _ | ⟨c, cs⟩
  · exact absurd rfl hne
  · simp only [List.headD_cons]
    exact eq_false (isDigitCh_ne c (hdig c (List.mem_cons_self c cs))).1

theorem pyIntChars_natChars (m : ℕ) : pyIntChars (natChars m) = some (m : ℤ) := by
  rw [pyIntChars, if_neg (by
    rw [headD_not_dash (natChars m) (natChars_ne_nil m) (natChars_all_digits m)]
    exact not_false), parseNatChars_natChars m]
  rfl

theorem splitAux_sepfree (sep : Char) : ∀ (cs : List Char), (∀ c ∈ cs, c ≠ sep) →
    splitAux sep cs = (cs, [])
  | [], _ => rfl
  | c :: cs, h => by
    simp only [splitAux, splitAux_sepfree sep cs fun x hx => h x (List.mem_cons_of_mem c hx),
      if_neg (h c (List.mem_cons_self c cs))]

theorem splitAux_append (sep : Char) : ∀ (xs ys : List Char), (∀ c ∈ xs, c ≠ sep) →
    splitAux sep (xs ++ sep :: ys) = (xs, (splitAux sep ys).1 :: (splitAux sep ys).2)
  | [], ys, _ => by simp [splitAux]
  | x :: xs, ys, h => by
    rw [List.cons_append, splitAux,
      splitAux_append sep xs ys fun c hc => h c (List.mem_cons_of_mem x hc),
      if_neg (h x (List.mem_cons_self x xs))]

theorem splitOnCh_sepfree (sep : Char) (cs : List Char) (h : ∀ c ∈ cs, c ≠ sep) :
    splitOnCh sep cs = [cs] := by
  simp [splitOnCh, splitAux_sepfree sep cs h]

theorem splitOnCh_append (sep : Char) (xs ys : List Char) (h : ∀ c ∈ xs, c ≠ sep) :
    splitOnCh sep (xs ++ sep :: ys) = xs :: splitOnCh sep ys := by
  simp [splitOnCh, splitAux_append sep xs ys h]

theorem removePt_cons_of_ne (c : Char) (l : List Char)
    (h : ¬(c = '.' ∧ l.take 2 = ['p', 't'])) : removePt (c :: l) = c :: removePt l := by
  rw [removePt.eq_def]
  split
  · next rest heq =>
    rw [List.cons.injEq] at heq
    exact absurd ⟨heq.1, by rw [heq.2]; rfl⟩ h
  · next c' rest' heq =>
    rw [List.cons.injEq] at heq
    rw [heq.1, heq.2]
  · next heq =>
    exact absurd heq (by simp)

theorem removePt_no_p : ∀ (cs : List Char), (∀ c ∈ cs, c ≠ 'p') → removePt cs = cs
  | [], _ => rfl
  | c :: cs, h => by
    rw [removePt_cons_of_ne c cs ?_,
      removePt_no_p cs fun x hx => h x (List.mem_cons_of_mem c hx)]
    rintro ⟨-, htake⟩
    have hp : 'p' ∈ cs := List.mem_of_mem_take (htake ▸ List.mem_cons_self 'p' ['t'])
    exact h 'p' (List.mem_cons_of_mem c hp) rfl

theorem removePt_append_pt : ∀ (xs : List Char), (∀ c ∈ xs, c ≠ 'p') →
    removePt (xs ++ '.' :: 'p' :: 't' :: []) = xs
  | [], _ => rfl
  | x :: xs, h => by
    rw [List.cons_append, removePt_cons_of_ne x _ ?_,
      removePt_append_pt xs fun c hc => h c (List.mem_cons_of_mem x hc)]
    rintro ⟨-, htake⟩
    rcases xs with _ | ⟨a, xs'⟩
    · simp at htake
    · rw [List.cons_append] at htake
      have ha : a = 'p' := congrArg (fun t => t.headD ' ') htake
      exact h a (List.mem_cons_of_mem x (List.mem_cons_self a _)) ha

theorem isDigitCh_ne_dot (c : Char) (h : isDigitCh c = true) : c ≠ '.' := by
  rintro rfl
  exact absurd h (by decide)

theorem roundHalfEven_natCast (m : ℕ) : roundHalfEven (m : ℚ) = m := by
  rw [roundHalfEven, Int.floor_natCast, if_pos (by push_cast; norm_num)]

theorem truncRat_natCast (m : ℕ) : truncRat (m : ℚ) = m := by
  rw [truncRat, if_pos (by positivity)]
  exact_mod_cast Int.floor_natCast m

theorem roundHalfEven_intCast (m : ℤ) : roundHalfEven (m : ℚ) = m := by
  rw [roundHalfEven, Int.floor_intCast, if_pos (by norm_num)]

theorem roundHalfEven_eq_low (q : ℚ) (v : ℤ) (h1 : (v : ℚ) ≤ q)
    (h2 : q - (v : ℚ) < 1/2) : roundHalfEven q = v := by
  have hf : ⌊q⌋ = v := Int.floor_eq_iff.mpr ⟨h1, by linarith⟩
  rw [roundHalfEven, hf, if_pos h2]

theorem roundHalfEven_eq_up (q : ℚ) (w : ℤ) (h1 : (w : ℚ) ≤ q)
    (h2 : q < (w : ℚ) + 1) (h3 : 1/2 < q - (w : ℚ)) :
    roundHalfEven q = w + 1 := by
  have hf : ⌊q⌋ = w := Int.floor_eq_iff.mpr ⟨h1, by linarith⟩
  rw [roundHalfEven, hf, if_neg (by linarith), if_pos h3]

theorem intLog2_between (r : ℚ) (e : ℤ) (h1 : (2 : ℚ) ^ e ≤ r)
    (h2 : r < (2 : ℚ) ^ (e + 1)) : Int.log 2 r = e := by
  have hcast : ((2 : ℕ) : ℚ) = (2 : ℚ) := by norm_num
  have hr : (0 : ℚ) < r := lt_of_lt_of_le (by positivity) h1
  have hle : e ≤ Int.log 2 r := by
    have hz : Int.log 2 ((2 : ℚ) ^ e) = e := by
      rw [← hcast]; exact Int.log_zpow (by norm_num) e
    calc e = Int.log 2 ((2 : ℚ) ^ e) := hz.symm
    _ ≤ Int.log 2 r := Int.log_mono_right (by positivity) h1
  have hlt : Int.log 2 r ≤ e := by
    by_contra hgt
    push_neg at hgt
    have h3 : (2 : ℚ) ^ (e + 1) ≤ (2 : ℚ) ^ (Int.log 2 r) :=
      zpow_le_zpow_right₀ (by norm_num) (by omega)
    have h4 := Int.zpow_log_le_self (b := 2) (r := r) (by norm_num) hr
    rw [hcast] at h4
    linarith
  omega

theorem fl_eq_self (q : ℚ) (k : ℤ)
    (h : q * (2 : ℚ) ^ ((52 : ℤ) - Int.log 2 |q|) = (k : ℚ)) : fl q = q := by
  by_cases hq : q = 0
  · rw [fl, if_pos hq, hq]
  · rw [fl, if_neg hq, h, roundHalfEven_intCast, ← h, mul_assoc,
      ← zpow_add₀ (by norm_num : (2 : ℚ) ≠ 0),
      show ((52 : ℤ) - Int.log 2 |q|) + (Int.log 2 |q| - 52) = 0 by ring,
      zpow_zero, mul_one]

theorem fl_natCast (m : ℕ) (h : m < 2 ^ 53) : fl (m : ℚ) = (m : ℚ) := by
  rcases Nat.eq_zero_or_pos m with rfl | hm
  · rw [show ((0 : ℕ) : ℚ) = 0 by norm_num, fl, if_pos rfl]
  · have habs : |(m : ℚ)| = (m : ℚ) := abs_of_nonneg (by positivity)
    have hpos : (0 : ℚ) < (m : ℚ) := by exact_mod_cast hm
    have hup : (m : ℚ) < (2 : ℚ) ^ ((53 : ℕ) : ℤ) := by
      rw [zpow_natCast]
      exact_mod_cast h
    have he : Int.log 2 |(m : ℚ)| ≤ 52 := by
      by_contra hgt
      push_neg at hgt
      have h1 : (2 : ℚ) ^ ((53 : ℕ) : ℤ) ≤ (2 : ℚ) ^ (Int.log 2 |(m : ℚ)|) :=
        zpow_le_zpow_right₀ (by norm_num) (by omega)
      have h2 := Int.zpow_log_le_self (b := 2) (r := |(m : ℚ)|) (by norm_num)
        (by rw [habs]; exact hpos)
      rw [show ((2 : ℕ) : ℚ) = (2 : ℚ) by norm_num, habs] at h2
      rw [habs] at h1
      linarith
    apply fl_eq_self _ ((m : ℤ) * 2 ^ ((52 - Int.log 2 |(m : ℚ)|).toNat))
    rw [show ((52 : ℤ) - Int.log 2 |(m : ℚ)|) =
        (((52 - Int.log 2 |(m : ℚ)|).toNat : ℕ) : ℤ) from
        (Int.toNat_of_nonneg (by omega)).symm, zpow_natCast]
    push_cast
    rw [Int.toNat_natCast]

theorem fl_three_halves : fl (3/2 : ℚ) = 3/2 := by
  have hlog : Int.log 2 |(3/2 : ℚ)| = 0 := by
    rw [show |(3/2 : ℚ)| = 3/2 from abs_of_nonneg (by norm_num)]
    refine intLog2_between _ 0 ?_ ?_
    · rw [zpow_zero]; norm_num
    · rw [show ((0 : ℤ) + 1) = ((1 : ℕ) : ℤ) by norm_num, zpow_natCast]; norm_num
  apply fl_eq_self _ (3 * 2 ^ 51)
  rw [hlog, show ((52 : ℤ) - 0) = ((52 : ℕ) : ℤ) by norm_num, zpow_natCast]
  push_cast
  norm_num

theorem natChars_lt_ten : ∀ d, d < 10 → natChars d = [digitChar d] := by decide

theorem fmtOneDec_chars (num den : ℕ) :
    ∀ c ∈ fmtOneDec num den, isDigitCh c = true ∨ c = '.' := by
  intro c hc
  simp only [fmtOneDec, List.mem_append, List.mem_cons] at hc
  rcases hc with hc | hc | hc
  · exact Or.inl (natChars_all_digits _ c hc)
  · exact Or.inr hc
  · exact Or.inl (natChars_all_digits _ c hc)

theorem format_games_chars (n : ℕ) :
    ∀ c ∈ format_games n, isDigitCh c = true ∨ c = '.' ∨ c = 'k' ∨ c = 'M' := by
  intro c hc
  rw [format_games] at hc
  split at hc
  · split at hc
    · rcases List.mem_append.mp hc with h | h
      · exact Or.inl (natChars_all_digits _ c h)
      · exact Or.inr (Or.inr (Or.inr (List.mem_singleton.mp h)))
    · rcases List.mem_append.mp hc with h | h
      · rcases fmtOneDec_chars _ _ c h with h' | h'
        · exact Or.inl h'
        · exact Or.inr (Or.inl h')
      · exact Or.inr (Or.inr (Or.inr (List.mem_singleton.mp h)))
  · split at hc
    · split at hc
      · rcases List.mem_append.mp hc with h | h
        · exact Or.inl (natChars_all_digits _ c h)
        · exact Or.inr (Or.inr (Or.inl (List.mem_singleton.mp h)))
      · rcases List.mem_append.mp hc with h | h
        · rcases fmtOneDec_chars _ _ c h with h' | h'
          · exact Or.inl h'
          · exact Or.inr (Or.inl h')
        · exact Or.inr (Or.inr (Or.inl (List.mem_singleton.mp h)))
    · exact Or.inl (natChars_all_digits _ c hc)

theorem format_games_no_sep (n : ℕ) :
    ∀ c ∈ format_games n, c ≠ '_' ∧ c ≠ '/' ∧ c ≠ 'p' := by
  intro c hc
  rcases format_games_chars n c hc with h | h | h | h
  · obtain ⟨-, -, -, h1, h2, h3⟩ := isDigitCh_ne c h
    exact ⟨h1, h2, h3⟩
  all_goals subst h
  · exact ⟨by decide, by decide, by decide⟩
  · exact ⟨by decide, by decide, by decide⟩
  · exact ⟨by decide, by decide, by decide⟩

theorem endsWithCh_concat (xs : List Char) (c : Char) :
    endsWithCh (xs ++ [c]) c = true := by
  simp [endsWithCh, List.getLast?_concat]

theorem endsWithCh_concat_ne (xs : List Char) (c c' : Char) (h : c ≠ c') :
    endsWithCh (xs ++ [c]) c' = false := by
  simp [endsWithCh, List.getLast?_concat, h]

theorem endsWithCh_natChars_false (m : ℕ) (ch : Char) (hch : isDigitCh ch = false) :
    endsWithCh (natChars m) ch = false := by
  have hne := natChars_ne_nil m
  have hgl : (natChars m).getLast? = some ((natChars m).getLast hne) :=
    List.getLast?_eq_getLast _ hne
  have hdig := natChars_all_digits m _ (List.getLast_mem hne)
  simp only [endsWithCh, hgl, Option.some.injEq, decide_eq_false_iff_not]
  rintro rfl
  rw [hdig] at hch
  exact absurd hch (by simp)

theorem pyFloatCore_natChars (m : ℕ) : pyFloatCore (natChars m) = some (m : ℚ) := by
  rw [pyFloatCore,
    splitOnCh_sepfree '.' (natChars m)
      (fun c hc => isDigitCh_ne_dot c (natChars_all_digits m c hc))]
  dsimp only
  rw [parseNatChars_natChars m]
  rfl

theorem pyFloatCore_onedec (a d : ℕ) (hd : d < 10) :
    pyFloatCore (natChars a ++ '.' :: natChars d) =
      some ((a : ℚ) + (d : ℚ) / 10) := by
  rw [pyFloatCore,
    splitOnCh_append '.' _ _
      (fun c hc => isDigitCh_ne_dot c (natChars_all_digits a c hc)),
    splitOnCh_sepfree '.' (natChars d)
      (fun c hc => isDigitCh_ne_dot c (natChars_all_digits d c hc))]
  have hall : ((natChars a ++ natChars d).all isDigitCh) = true :=
    List.all_eq_true.mpr fun c hc => by
      rcases List.mem_append.mp hc with h | h
      · exact natChars_all_digits a c h
      · exact natChars_all_digits d c h
  dsimp only
  rw [if_pos ⟨by simp [natChars_ne_nil a], hall⟩, natChars_fold a, natChars_fold d,
    natChars_lt_ten d hd]
  simp

theorem headD_append_of_ne_nil (xs l : List Char) (d : Char) (h : xs ≠ []) :
    (xs ++ l).headD d = xs.headD d := by
  rcases xs with _ | ⟨c, cs⟩
  · exact absurd rfl h
  · rfl

theorem pyFloatChars_digit_head (cs : List Char) (hne : cs ≠ [])
    (hdig : isDigitCh (cs.headD ' ') = true) :
    pyFloatChars cs = (pyFloatCore cs).map fun q => fl q := by
  rw [pyFloatChars, if_neg ?_]
  intro heq
  rw [heq] at hdig
  exact absurd hdig (by decide)

theorem pfree_mem_cases (mode eps gp : List Char) (c : Char)
    (hc : c ∈ "cnnrl".data ++ '_' :: (mode ++ '_' :: (gp ++ '_' :: eps))) :
    c ∈ "cnnrl".data ∨ c = '_' ∨ c ∈ mode ∨ c ∈ gp ∨ c ∈ eps := by
  rcases List.mem_append.mp hc with h | h
  · exact Or.inl h
  rcases List.mem_cons.mp h with h | h
  · exact Or.inr (Or.inl h)
  rcases List.mem_append.mp h with h | h
  · exact Or.inr (Or.inr (Or.inl h))
  rcases List.mem_cons.mp h with h | h
  · exact Or.inr (Or.inl h)
  rcases List.mem_append.mp h with h | h
  · exact Or.inr (Or.inr (Or.inr (Or.inl h)))
  rcases List.mem_cons.mp h with h | h
  · exact Or.inr (Or.inl h)
  · exact Or.inr (Or.inr (Or.inr (Or.inr h)))

theorem read_format_roundtrip (mode eps : List Char) (n : ℕ)
    (hmode : ∀ c ∈ mode, c ≠ '_' ∧ c ≠ '/' ∧ c ≠ 'p')
    (heps : ∀ c ∈ eps, c ≠ '_' ∧ c ≠ '/' ∧ c ≠ 'p')
    (hn : n < 1000 ∨ (1000 ≤ n ∧ n < 1000000 ∧ n % 1000 = 0) ∨
          (1000000 ≤ n ∧ n % 1000000 = 0 ∧ n < 2 ^ 53)) :
    read_games_from_filename (trainFilename mode n eps) = some (n : ℤ) := by
  have hgp_sep := format_games_no_sep n
  have hcn : ∀ c ∈ "cnnrl".data, c ≠ '_' ∧ c ≠ '/' ∧ c ≠ 'p' := by decide
  have hfile : trainFilename mode n eps =
      "CNN_models".data ++ '/' ::
        (("cnnrl".data ++ '_' :: (mode ++ '_' :: (format_games n ++ '_' :: eps))) ++
          '.' :: 'p' :: 't' :: []) := by
    have h1 : "CNN_models/cnnrl_".data =
        "CNN_models".data ++ '/' :: ("cnnrl".data ++ ['_']) := rfl
    have h2 : ".pt".data = '.' :: 'p' :: 't' :: [] := rfl
    rw [trainFilename, h1, h2]
    simp [List.append_assoc]
  have hpfree : ∀ c ∈ "cnnrl".data ++ '_' :: (mode ++ '_' :: (format_games n ++ '_' :: eps)),
      c ≠ 'p' := by
    intro c hc
    rcases pfree_mem_cases mode eps (format_games n) c hc with h | h | h | h | h
    · exact (hcn c h).2.2
    · subst h; decide
    · exact (hmode c h).2.2
    · exact (hgp_sep c h).2.2
    · exact (heps c h).2.2
  have hbase : removePt (pyBasename (trainFilename mode n eps)) =
      "cnnrl".data ++ '_' :: (mode ++ '_' :: (format_games n ++ '_' :: eps)) := by
    rw [hfile, pyBasename, splitOnCh_append '/' _ _ (by decide),
      splitOnCh_sepfree '/' _ ?_]
    · simp only [List.getLastD]
      exact removePt_append_pt _ hpfree
    · intro c hc
      rcases List.mem_append.mp hc with h | h
      · rcases pfree_mem_cases mode eps (format_games n) c h with h | h | h | h | h
        · exact (hcn c h).2.1
        · subst h; decide
        · exact (hmode c h).2.1
        · exact (hgp_sep c h).2.1
        · exact (heps c h).2.1
      · rcases List.mem_cons.mp h with h | h
        · subst h; decide
        rcases List.mem_cons.mp h with h | h
        · subst h; decide
        rcases List.mem_cons.mp h with h | h
        · subst h; decide
        · exact absurd h (List.not_mem_nil c)
  have hparts : splitOnCh '_' (removePt (pyBasename (trainFilename mode n eps))) =
      ["cnnrl".data, mode, format_games n, eps] := by
    rw [hbase, splitOnCh_append '_' _ _ (fun c hc => (hcn c hc).1),
      splitOnCh_append '_' _ _ (fun c hc => (hmode c hc).1),
      splitOnCh_append '_' _ _ (fun c hc => (hgp_sep c hc).1),
      splitOnCh_sepfree '_' eps (fun c hc => (heps c hc).1)]
  rw [read_games_from_filename, hparts]
  rw [if_neg (by simp)]
  simp only [List.getD_cons_succ, List.getD_cons_zero]
  rcases hn with hA | ⟨hB1, hB2, hB3⟩ | ⟨hC1, hC3, hC53⟩
  · -- n < 1000 : plain decimal label
    have hfa : format_games n = natChars n := by
      rw [format_games, if_neg (by omega), if_neg (by omega)]
    rw [hfa, endsWithCh_natChars_false n 'k' (by decide),
      endsWithCh_natChars_false n 'M' (by decide)]
    simp only [Bool.false_eq_true, if_false, pyIntChars_natChars n]
  · -- thousands, exactly divisible : label `<q>k`
    have hfa : format_games n = natChars (n / 1000) ++ ['k'] := by
      rw [format_games, if_neg (by omega), if_pos hB1, if_pos hB3]
    rw [hfa, endsWithCh_concat, if_pos rfl, List.dropLast_concat,
      pyIntChars_natChars (n / 1000)]
    simp only [Option.map_some']
    congr 1
    have h5 := Nat.div_mul_cancel (Nat.dvd_of_mod_eq_zero hB3)
    exact_mod_cast h5
  · -- millions, exactly divisible : label `<q>M`
    have hfa : format_games n = natChars (n / 1000000) ++ ['M'] := by
      rw [format_games, if_pos hC1, if_pos hC3]
    have hhead : isDigitCh ((natChars (n / 1000000)).headD ' ') = true := by
      have hne := natChars_ne_nil (n / 1000000)
      rcases hh : natChars (n / 1000000) with _ | ⟨c, cs⟩
      · exact absurd hh hne
      · simp only [List.headD_cons]
        exact natChars_all_digits _ c (hh ▸ List.mem_cons_self c cs)
    rw [hfa, endsWithCh_concat_ne _ 'M' 'k' (by decide)]
    rw [if_neg (by simp), endsWithCh_concat, if_pos rfl, List.dropLast_concat,
      pyFloatChars_digit_head _ (natChars_ne_nil _) hhead, pyFloatCore_natChars]
    simp only [Option.map_some']
    have hX : (n / 1000000 : ℕ) < 2 ^ 53 := lt_of_le_of_lt (Nat.div_le_self _ _) hC53
    rw [fl_natCast _ hX]
    have h5 : ((n / 1000000 : ℕ) : ℚ) * 1000000 = ((n : ℕ) : ℚ) := by
      have := Nat.div_mul_cancel (Nat.dvd_of_mod_eq_zero hC3)
      exact_mod_cast this
    rw [h5, fl_natCast n hC53, truncRat_natCast]

/-! ## Concrete test fixtures -/

/-- A non-terminal near-full position with two open columns (0 and 6),
mirror-symmetric, so the second root child of the depth-2 alpha-beta search
is cut off exactly at its last (only) grandchild. -/
def pruneBoard : Board :=
  [[1,2,1,2,1],[1,2,1,2,1,2],[1,2,1,2,1,2],[2,1,2,1,2,1],[1,2,1,2,1,2],[1,2,1,2,1,2],[1,2,1,2,1]]

/-- A non-terminal near-full position with three open columns (0, 1, 6),
on which the depth-2 alpha-beta search prunes with siblings remaining. -/
def skipBoard : Board :=
  [[1,2,1,2,1],[1,2,1,2,1],[1,2,1,2,1,2],[2,1,2,1,2,1],[1,2,1,2,1,2],[1,2,1,2,1,2],[1,2,1,2,1]]

/-- The all-zero random stream: every inner-loop draw plays column 0. -/
def zeroStream : ℕ → ℕ := fun _ => 0

/-- A random stream under which the sampled game is won by player 1 after
seven moves, so the sample is discarded. -/
def winStream : ℕ → ℕ := fun i => [0,0,0,0,1,0,0,0,1,0,0,0,1,0,0].getD i 0

/-- The board produced by `generate_boards` under the all-zero stream:
column 0 filled with six alternating tokens. -/
def colBoard : Board := [[1,2,1,2,1,2],[],[],[],[],[],[]]

/-- Sequential `get_move` calls on one `CountingMinimax` instance. -/
def runMinimaxCalls (ai : CountingMinimax) (bs : List Board) : CountingMinimax :=
  bs.foldl (fun a b => (a.get_move b).2) ai

/-- Sequential `get_move` calls on one `CountingAlphaBeta` instance. -/
def runAlphaBetaCalls (ai : CountingAlphaBeta) (bs : List Board) : CountingAlphaBeta :=
  bs.foldl (fun a b => (a.get_move b).2) ai

theorem runMinimaxCalls_spec (pid : ℕ) (d : ℤ) :
    ∀ (bs : List Board) (k : ℕ),
      runMinimaxCalls ⟨pid, d, k⟩ bs =
        ⟨pid, d, k + (bs.map (mmTotalNodes pid d)).sum⟩
  | [], k => by simp [runMinimaxCalls]
  | b :: bs, k => by
    have hstep : ((⟨pid, d, k⟩ : CountingMinimax).get_move b).2 =
        (⟨pid, d, k + mmTotalNodes pid d b⟩ : CountingMinimax) := by
      rw [cm_get_move_eq]
    rw [runMinimaxCalls, List.foldl_cons, hstep]
    have h2 := runMinimaxCalls_spec pid d bs (k + mmTotalNodes pid d b)
    rw [runMinimaxCalls] at h2
    rw [h2]
    simp only [List.map_cons, List.sum_cons, CountingMinimax.mk.injEq, true_and]
    omega

theorem runAlphaBetaCalls_spec (pid : ℕ) (d : ℤ) :
    ∀ (bs : List Board) (k : ℕ),
      runAlphaBetaCalls ⟨pid, d, k⟩ bs =
        ⟨pid, d, k + (bs.map (abTotalNodes pid d)).sum⟩
  | [], k => by simp [runAlphaBetaCalls]
  | b :: bs, k => by
    have hstep : ((⟨pid, d, k⟩ : CountingAlphaBeta).get_move b).2 =
        (⟨pid, d, k + abTotalNodes pid d b⟩ : CountingAlphaBeta) := by
      rw [cab_get_move_eq]
    rw [runAlphaBetaCalls, List.foldl_cons, hstep]
    have h2 := runAlphaBetaCalls_spec pid d bs (k + abTotalNodes pid d b)
    rw [runAlphaBetaCalls] at h2
    rw [h2]
    simp only [List.map_cons, List.sum_cons, CountingAlphaBeta.mk.injEq, true_and]
    omega

/-! ## The claims -/

set_option maxRecDepth 10000 in
/-- Claim C1, counterexample to the strictness clause as stated: on
`pruneBoard` at depth 2 the pruning condition `alpha ≥ beta` does trigger
during the alpha-beta search, yet the cutoff falls on the last sibling, no
subtree is skipped, and the two variants visit exactly the same number of
nodes — so "strictly less whenever any pruning condition triggers" fails. -/
theorem C1_cut_without_fewer_nodes :
    abCutHappened 1 2 pruneBoard = true ∧
    ¬(abTotalNodes 1 2 pruneBoard < mmTotalNodes 1 2 pruneBoard) := by decide

/-- Claim C1 (amended): for every board, depth and player id, the
alpha-beta variant chooses the same root column with the same score as the
unpruned minimax variant, its node count never exceeds minimax's, and it is
strictly smaller whenever a cutoff fires with at least one sibling still
unexplored (a cutoff at the last sibling prunes nothing and may leave the
counts equal). -/
theorem C1_alphabeta_refines_minimax (pid : ℕ) (d : ℤ) (b : Board) :
    get_move_ab pid d b = get_move pid d b ∧
    abTotalNodes pid d b ≤ mmTotalNodes pid d b ∧
    (abSkipHappened pid d b = true →
      abTotalNodes pid d b < mmTotalNodes pid d b) :=
  ⟨get_move_ab_eq_get_move pid d b, abTotalNodes_le pid d b,
   abTotalNodes_lt pid d b⟩

set_option maxRecDepth 10000 in
/-- Witness for C1's strictness clause: on `skipBoard` at depth 2 a cutoff
fires with a sibling remaining and alpha-beta visits strictly fewer nodes. -/
theorem C1_alphabeta_refines_minimax_witness :
    abSkipHappened 1 2 skipBoard = true ∧
    abTotalNodes 1 2 skipBoard < mmTotalNodes 1 2 skipBoard :=
  ⟨by decide, (C1_alphabeta_refines_minimax 1 2 skipBoard).2.2 (by decide)⟩

/-- Claim C2: one top-level `get_move` call on a counting instance raises
the node counter by exactly the number of recursive `minimax`
(respectively `minimax_ab`) invocations of that call, for every starting
counter value — each invocation adds exactly one, nothing else adds. -/
theorem C2_counter_counts_invocations (pid : ℕ) (d : ℤ) (k : ℕ) (b : Board) :
    (((⟨pid, d, k⟩ : CountingMinimax).get_move b).2).nodes =
      k + mmTotalNodes pid d b ∧
    (((⟨pid, d, k⟩ : CountingAlphaBeta).get_move b).2).nodes =
      k + abTotalNodes pid d b := by
  constructor
  · rw [cm_get_move_eq]
  · rw [cab_get_move_eq]

/-- Claim C3: the node counter starts at zero at construction, never
decreases across `get_move` calls, and after any sequence of calls on the
same instance it equals the accumulated total of all recursive invocations
since construction; no call resets it. -/
theorem C3_counter_persists (pid : ℕ) (d : ℤ) :
    (CountingMinimax.make pid d).nodes = 0 ∧
    (CountingAlphaBeta.make pid d).nodes = 0 ∧
    (∀ (ai : CountingMinimax) (b : Board), ai.nodes ≤ ((ai.get_move b).2).nodes) ∧
    (∀ (ai : CountingAlphaBeta) (b : Board), ai.nodes ≤ ((ai.get_move b).2).nodes) ∧
    (∀ bs : List Board, (runMinimaxCalls (CountingMinimax.make pid d) bs).nodes =
      (bs.map (mmTotalNodes pid d)).sum) ∧
    (∀ bs : List Board, (runAlphaBetaCalls (CountingAlphaBeta.make pid d) bs).nodes =
      (bs.map (abTotalNodes pid d)).sum) := by
  refine ⟨rfl, rfl, ?_, ?_, ?_, ?_⟩
  · intro ai b
    rw [cm_get_move_eq]
    exact Nat.le_add_right _ _
  · intro ai b
    rw [cab_get_move_eq]
    exact Nat.le_add_right _ _
  · intro bs
    rw [CountingMinimax.make, runMinimaxCalls_spec pid d bs 0]
    simp
  · intro bs
    rw [CountingAlphaBeta.make, runAlphaBetaCalls_spec pid d bs 0]
    simp

/-- Claim C4: every board returned by `generate_boards` is non-terminal and
is the board of a game state reached from a fresh game by at most 15 legal
moves; samples whose game ended are discarded. -/
theorem C4_generated_boards_midgame (s : ℕ → ℕ) (n i : ℕ) (b : Board)
    (h : b ∈ generate_boards s n i) :
    gameOver b = false ∧ ∃ j g, j ≤ 15 ∧ Reach j g ∧ g.board = b :=
  generate_boards_spec s n i b h

set_option maxRecDepth 10000 in
/-- Witness for C4 at a concrete stream: the all-zero stream yields exactly
the column-0 board, which is non-terminal and reachable in at most 15 moves. -/
theorem C4_generated_boards_midgame_witness :
    colBoard ∈ generate_boards zeroStream 1 0 ∧
    (gameOver colBoard = false ∧ ∃ j g, j ≤ 15 ∧ Reach j g ∧ g.board = colBoard) :=
  ⟨by decide, C4_generated_boards_midgame zeroStream 1 0 colBoard (by decide)⟩

/-- Claim C5: the board list is generated exactly once and that identical
list, in the same order, is the sequence of boards fed to the minimax
variant and to the alpha-beta variant at every configured depth 3, 4, 5. -/
theorem C5_same_boards_for_both_variants (s : ℕ → ℕ) (tmM tmA : ℤ → Board → ℚ) :
    benchmarkRuns s tmM tmA =
      [runDepth tmM tmA (generate_boards s 30 0) 3,
       runDepth tmM tmA (generate_boards s 30 0) 4,
       runDepth tmM tmA (generate_boards s 30 0) 5] ∧
    ∀ (bs : List Board) (d : ℤ),
      (runDepth tmM tmA bs d).mmTrace = bs ∧ (runDepth tmM tmA bs d).abTrace = bs := by
  refine ⟨rfl, fun bs d => ?_⟩
  rw [runDepth_spec]
  exact ⟨rfl, rfl⟩

theorem roundTo_one_third : roundTo 1 ((1 : ℚ)/3) = 3/10 := by
  have h1 : (1 : ℚ)/3 * 10 ^ (1 : ℕ) = 10/3 := by norm_num
  have hf : ⌊(10 : ℚ)/3⌋ = 3 := by
    rw [Int.floor_eq_iff]
    constructor <;> norm_num
  rw [roundTo, h1, roundHalfEven, hf, if_pos (by norm_num)]
  norm_num

/-- Claim C6, counterexample as stated: with per-call times 1 (minimax) and
3 (alpha-beta) on a single board, the exact ratio of average times is 1/3,
but the emitted `Speedup` field is `round(1/3, 1) = 0.3`, so the field is
not equal to the average minimax time divided by the average alpha-beta
time. -/
theorem C6_speedup_rounded_counterexample :
    (mkRecord (fun _ _ => (1 : ℚ)) (fun _ _ => (3 : ℚ)) [pruneBoard] 3).Speedup ≠
      ((runDepth (fun _ _ => (1 : ℚ)) (fun _ _ => (3 : ℚ)) [pruneBoard] 3).mmTime /
          ([pruneBoard].length : ℚ)) /
        ((runDepth (fun _ _ => (1 : ℚ)) (fun _ _ => (3 : ℚ)) [pruneBoard] 3).abTime /
          ([pruneBoard].length : ℚ)) := by
  simp only [mkRecord, runDepth_spec, List.map_cons, List.map_nil, List.sum_cons,
    List.sum_nil, List.length_singleton]
  norm_num
  rw [roundTo_one_third]
  norm_num

/-- Claim C6 (amended): each emitted record reports, for its depth, the
per-board averages and derived ratios of the accumulated times and node
counts — rounded exactly as in the source: times to 4 decimals, `Speedup`
and `Nodes_Saved_Percent` to 1 decimal, node averages truncated to
integers. -/
theorem C6_record_fields (tmM tmA : ℤ → Board → ℚ) (bs : List Board) (d : ℤ)
    (h : 0 < bs.length) :
    (mkRecord tmM tmA bs d).Depth = d ∧
    (mkRecord tmM tmA bs d).Minimax_Time_Sec =
      roundTo 4 ((bs.map (tmM d)).sum / (bs.length : ℚ)) ∧
    (mkRecord tmM tmA bs d).AlphaBeta_Time_Sec =
      roundTo 4 ((bs.map (tmA d)).sum / (bs.length : ℚ)) ∧
    (mkRecord tmM tmA bs d).Speedup =
      roundTo 1 (((bs.map (tmM d)).sum / (bs.length : ℚ)) /
        ((bs.map (tmA d)).sum / (bs.length : ℚ))) ∧
    (mkRecord tmM tmA bs d).Minimax_Nodes =
      truncRat (((bs.map (mmTotalNodes 1 d)).sum : ℚ) / (bs.length : ℚ)) ∧
    (mkRecord tmM tmA bs d).AlphaBeta_Nodes =
      truncRat (((bs.map (abTotalNodes 1 d)).sum : ℚ) / (bs.length : ℚ)) ∧
    (mkRecord tmM tmA bs d).Nodes_Saved_Percent =
      roundTo 1 ((((bs.map (mmTotalNodes 1 d)).sum : ℚ) / (bs.length : ℚ) -
          ((bs.map (abTotalNodes 1 d)).sum : ℚ) / (bs.length : ℚ)) /
        (((bs.map (mmTotalNodes 1 d)).sum : ℚ) / (bs.length : ℚ)) * 100) := by
  refine ⟨?_, ?_, ?_, ?_, ?_, ?_, ?_⟩ <;> simp only [mkRecord, runDepth_spec]

/-- Witness for C6 at one board with constant timing oracles. -/
theorem C6_record_fields_witness :
    0 < ([pruneBoard] : List Board).length ∧
    (mkRecord (fun _ _ => (1 : ℚ)) (fun _ _ => (3 : ℚ)) [pruneBoard] 3).Depth = 3 :=
  ⟨by decide,
   (C6_record_fields (fun _ _ => (1 : ℚ)) (fun _ _ => (3 : ℚ)) [pruneBoard] 3
     (by decide)).1⟩

/-- Claim C7: the chosen column is a pure function of the board, the depth
and the player id — it does not depend on the instance's counter state, and
a repeated call on the same (updated) instance returns the same column and
adds the same node count as the first call. -/
theorem C7_get_move_deterministic (pid : ℕ) (d : ℤ) (k : ℕ) (b : Board) :
    ((⟨pid, d, k⟩ : CountingMinimax).get_move b).1 = (get_move pid d b).1 ∧
    ((⟨pid, d, k⟩ : CountingAlphaBeta).get_move b).1 = (get_move_ab pid d b).1 ∧
    ((((⟨pid, d, k⟩ : CountingMinimax).get_move b).2).get_move b).1 =
      ((⟨pid, d, k⟩ : CountingMinimax).get_move b).1 ∧
    ((((⟨pid, d, k⟩ : CountingAlphaBeta).get_move b).2).get_move b).1 =
      ((⟨pid, d, k⟩ : CountingAlphaBeta).get_move b).1 ∧
    (((((⟨pid, d, k⟩ : CountingMinimax).get_move b).2).get_move b).2).nodes -
        ((((⟨pid, d, k⟩ : CountingMinimax).get_move b).2)).nodes =
      ((((⟨pid, d, k⟩ : CountingMinimax).get_move b).2)).nodes - k ∧
    (((((⟨pid, d, k⟩ : CountingAlphaBeta).get_move b).2).get_move b).2).nodes -
        ((((⟨pid, d, k⟩ : CountingAlphaBeta).get_move b).2)).nodes =
      ((((⟨pid, d, k⟩ : CountingAlphaBeta).get_move b).2)).nodes - k := by
  refine ⟨?_, ?_, ?_, ?_, ?_, ?_⟩ <;> simp only [cm_get_move_eq, cab_get_move_eq] <;>
    omega

/-- Claim C8: for every depth parameter at most 0, both search variants
terminate immediately by evaluating the board, making exactly one recursive
invocation and no recursive expansion; the recursion is total for every
depth by construction. -/
theorem C8_nonpositive_depth_evaluates (pid : ℕ) (b : Board) (maxing : Bool)
    (d : ℤ) (a bet : Score) (k : ℕ) (h : d ≤ 0) :
    minimax pid b d maxing = toExt (evaluate b pid) ∧
    minimax_ab pid b d maxing a bet = toExt (evaluate b pid) ∧
    (cminimaxF pid d.toNat b maxing k).2 = k + 1 ∧
    (cabF pid d.toNat b maxing a bet k).2 = k + 1 := by
  have h0 : d.toNat = 0 := Int.toNat_of_nonpos h
  rw [minimax, minimax_ab, h0]
  exact ⟨rfl, rfl, rfl, rfl⟩

/-- Witness for C8 at depth -1 on the column-0 board. -/
theorem C8_nonpositive_depth_evaluates_witness :
    ((-1 : ℤ) ≤ 0) ∧ minimax 1 colBoard (-1) true = toExt (evaluate colBoard 1) :=
  ⟨by decide,
   (C8_nonpositive_depth_evaluates 1 colBoard true (-1) ⊥ ⊤ 0 (by decide)).1⟩

theorem format_games_1500 : format_games 1500 = ['1', '.', '5', 'k'] := by
  rw [format_games, if_neg (by norm_num), if_pos (by norm_num), if_neg (by norm_num),
    fmtOneDec, show ((1500 : ℕ) : ℚ) / ((1000 : ℕ) : ℚ) = 3/2 by push_cast; norm_num,
    fl_three_halves, show (3/2 : ℚ) * 10 = ((15 : ℕ) : ℚ) by push_cast; norm_num,
    roundHalfEven_natCast, Int.toNat_natCast]
  rfl

/-- Claim C9, counterexample as stated: resuming from a model trained for
1500 games, `format_games` produces the label `1.5k`, and
`read_games_from_filename` then calls `int("1.5")`, which raises an
uncaught `ValueError` (modelled as `none`) instead of returning 1500. -/
theorem C9_roundtrip_counterexample :
    read_games_from_filename (trainFilename "random".data 1500 "0.9".data) ≠
      some (1500 : ℤ) := by
  have h : trainFilename "random".data 1500 "0.9".data =
      "CNN_models/cnnrl_random_1.5k_0.9.pt".data := by
    rw [trainFilename, format_games_1500]
    rfl
  rw [h]
  decide

theorem fl_41_tenths : fl (41/10 : ℚ) = 4616189618054758 / 1125899906842624 := by
  have hlog : Int.log 2 |(41/10 : ℚ)| = 2 := by
    rw [show |(41/10 : ℚ)| = 41/10 from abs_of_nonneg (by norm_num)]
    refine intLog2_between _ 2 ?_ ?_
    · rw [show (2 : ℤ) = ((2 : ℕ) : ℤ) by norm_num, zpow_natCast]; norm_num
    · rw [show ((2 : ℤ) + 1) = ((3 : ℕ) : ℤ) by norm_num, zpow_natCast]; norm_num
  rw [fl, if_neg (by norm_num), hlog,
    show ((52 : ℤ) - 2) = ((50 : ℕ) : ℤ) by norm_num, zpow_natCast,
    show (41/10 : ℚ) * 2 ^ (50 : ℕ) = 23080948090273792/5 by norm_num,
    roundHalfEven_eq_low _ 4616189618054758 (by norm_num) (by norm_num),
    show ((2 : ℤ) - 52) = -((50 : ℕ) : ℤ) by norm_num, zpow_neg, zpow_natCast]
  norm_num

theorem format_games_41M : format_games 4100000 = ['4', '.', '1', 'M'] := by
  have hr : roundHalfEven ((4616189618054758 / 1125899906842624 : ℚ) * 10) = 41 :=
    (roundHalfEven_eq_up ((4616189618054758 / 1125899906842624 : ℚ) * 10) 40
      (by norm_num) (by norm_num) (by norm_num)).trans (by norm_num)
  rw [format_games, if_pos (by norm_num), if_neg (by norm_num), fmtOneDec,
    show ((4100000 : ℕ) : ℚ) / ((1000000 : ℕ) : ℚ) = 41/10 by push_cast; norm_num,
    fl_41_tenths, hr]
  rfl

theorem fl_41_product :
    fl ((4616189618054758 / 1125899906842624 : ℚ) * 1000000) =
      8804682956799999 / 2147483648 := by
  rw [show (4616189618054758 / 1125899906842624 : ℚ) * 1000000 =
      36063981391052796875 / 8796093022208 by norm_num]
  have hlog : Int.log 2 |(36063981391052796875 / 8796093022208 : ℚ)| = 21 := by
    rw [show |(36063981391052796875 / 8796093022208 : ℚ)| =
        36063981391052796875 / 8796093022208 from abs_of_nonneg (by norm_num)]
    refine intLog2_between _ 21 ?_ ?_
    · rw [show (21 : ℤ) = ((21 : ℕ) : ℤ) by norm_num, zpow_natCast]; norm_num
    · rw [show ((21 : ℤ) + 1) = ((22 : ℕ) : ℤ) by norm_num, zpow_natCast]; norm_num
  rw [fl, if_neg (by norm_num), hlog,
    show ((52 : ℤ) - 21) = ((31 : ℕ) : ℤ) by norm_num, zpow_natCast,
    show (36063981391052796875 / 8796093022208 : ℚ) * 2 ^ (31 : ℕ) =
      36063981391052796875 / 4096 by norm_num,
    roundHalfEven_eq_low _ 8804682956799999 (by norm_num) (by norm_num),
    show ((21 : ℤ) - 52) = -((31 : ℕ) : ℤ) by norm_num, zpow_neg, zpow_natCast]
  norm_num

theorem trunc_41_product :
    truncRat (8804682956799999 / 2147483648 : ℚ) = 4099999 := by
  rw [truncRat, if_pos (by norm_num)]
  exact Int.floor_eq_iff.mpr ⟨by norm_num, by norm_num⟩

/-- Fidelity check of the binary64 model against the excluded one-decimal
labels: the label built for 4 100 000 games is `4.1M`, and reading it back
computes `int(float("4.1") * 1_000_000) = 4_099_999`, exactly as CPython
does — `float("4.1")` is 0.4 ulp below 41/10, and the rounded product lies
just below 4 100 000, so the truncation loses one game. -/
theorem read_4_1M :
    read_games_from_filename (trainFilename "random".data 4100000 "0.9".data) =
      some (4099999 : ℤ) := by
  have h : trainFilename "random".data 4100000 "0.9".data =
      "CNN_models/cnnrl_random_4.1M_0.9.pt".data := by
    rw [trainFilename, format_games_41M]
    rfl
  rw [h]
  have hparts : splitOnCh '_'
      (removePt (pyBasename "CNN_models/cnnrl_random_4.1M_0.9.pt".data)) =
      ["cnnrl".data, "random".data, "4.1M".data, "0.9".data] := by decide
  rw [read_games_from_filename, hparts, if_neg (by decide)]
  simp only [List.getD_cons_succ, List.getD_cons_zero]
  rw [show endsWithCh "4.1M".data 'k' = false by decide, if_neg (by simp),
    show endsWithCh "4.1M".data 'M' = true by decide, if_pos rfl,
    show ("4.1M".data).dropLast = ['4', '.', '1'] by decide,
    show (['4', '.', '1'] : List Char) = natChars 4 ++ '.' :: natChars 1 by decide,
    pyFloatChars_digit_head _ (by decide) (by decide),
    pyFloatCore_onedec 4 1 (by norm_num)]
  simp only [Option.map_some']
  rw [show ((4 : ℕ) : ℚ) + ((1 : ℕ) : ℚ) / 10 = 41/10 by push_cast; norm_num,
    fl_41_tenths, fl_41_product, trunc_41_product]

/-- Claim C9 (amended): `read_games_from_filename` is a left inverse of
`format_games` over the training filename convention for the game counts
whose label is read back exactly — `n < 1000`, multiples of 1000 below a
million, and multiples of 1 000 000 below `2 ^ 53` — provided the mode and
epsilon strings contain no underscore, slash or `p` (the argparse modes
`random`, `self` and `heuristic`, and decimal epsilon strings, all
qualify).  On this domain every float operation the code performs is exact
in binary64; one-decimal `M` labels are excluded because the rounded
product `float("4.1") * 1_000_000` truncates to 4 099 999 (`read_4_1M`). -/
theorem C9_read_inverts_format (mode eps : List Char) (n : ℕ)
    (hmode : ∀ c ∈ mode, c ≠ '_' ∧ c ≠ '/' ∧ c ≠ 'p')
    (heps : ∀ c ∈ eps, c ≠ '_' ∧ c ≠ '/' ∧ c ≠ 'p')
    (hn : n < 1000 ∨ (1000 ≤ n ∧ n < 1000000 ∧ n % 1000 = 0) ∨
          (1000000 ≤ n ∧ n % 1000000 = 0 ∧ n < 2 ^ 53)) :
    read_games_from_filename (trainFilename mode n eps) = some (n : ℤ) :=
  read_format_roundtrip mode eps n hmode heps hn

/-- Witness for C9 at 500 000 games, mode `random`, epsilon `0.999995`. -/
theorem C9_read_inverts_format_witness :
    (∀ c ∈ "random".data, c ≠ '_' ∧ c ≠ '/' ∧ c ≠ 'p') ∧
    (∀ c ∈ "0.999995".data, c ≠ '_' ∧ c ≠ '/' ∧ c ≠ 'p') ∧
    (500000 < 1000 ∨ (1000 ≤ 500000 ∧ 500000 < 1000000 ∧ 500000 % 1000 = 0) ∨
      (1000000 ≤ 500000 ∧ 500000 % 1000000 = 0 ∧ 500000 < 2 ^ 53)) ∧
    read_games_from_filename (trainFilename "random".data 500000 "0.999995".data) =
      some (500000 : ℤ) :=
  ⟨by decide, by decide, by decide,
   C9_read_inverts_format "random".data "0.999995".data 500000
     (by decide) (by decide) (by decide)⟩

set_option maxRecDepth 10000 in
/-- Claim C10: `generate_boards` can return fewer boards than requested —
under `winStream` the single sampled game is won during generation and the
result is empty — and the averaging divisions of `benchmark` succeed
exactly when the generated list is nonempty, a precondition the code never
checks. -/
theorem C10_empty_generation_divides_by_zero :
    generate_boards winStream 1 0 = [] ∧
    ∀ (tmM tmA : ℤ → Board → ℚ) (bs : List Board) (d : ℤ),
      (benchAverages tmM tmA bs d).isSome = true ↔ bs ≠ [] := by
  refine ⟨by decide, fun tmM tmA bs d => ?_⟩
  rcases bs with _ | ⟨b, bs⟩
  · simp [benchAverages]
  · simp [benchAverages]
